import Mathlib

/-!
Verification of the multipart/form-data request parser and handler logic of
the image-converter service (`netlify/functions/convert-image.js`).

Byte buffers are modelled as `List Nat` (one `Nat` per byte).  JavaScript
strings that the code only ever scans byte-wise (headers, field names,
parameter values) are modelled by their byte sequences as well, so the
UTF-8 decode performed by `Buffer.toString('utf-8')` on ASCII data is the
identity in this embedding.
-/

namespace ImageConverter

abbrev Bytes := List Nat

/-- Byte sequence of an ASCII string literal. -/
def ascii (s : String) : Bytes := s.data.map Char.toNat

/-- CRLF line break. -/
def crlf : Bytes := [13, 10]

/-- The blank-line separator between a part's headers and its content
(`Buffer.from('\r\n\r\n')` in the source). -/
def crlfcrlf : Bytes := [13, 10, 13, 10]

/-- `Buffer.indexOf(needle, start)`, searching left to right: auxiliary
recursion on an explicit fuel so that the function reduces in the kernel.
A fuel of `buf.length + 1 - start` always suffices because the scan stops
as soon as `start + needle.length` overruns the buffer. -/
def findFromAux (buf needle : Bytes) : Nat → Nat → Option Nat
  | 0, _ => none
  | fuel + 1, start =>
    if start + needle.length ≤ buf.length then
      if needle.isPrefixOf (buf.drop start) then some start
      else findFromAux buf needle fuel (start + 1)
    else none

/-- `Buffer.indexOf(needle, start)`: index of the first occurrence of
`needle` in `buf` at or after `start`, if any. -/
def findFrom (buf needle : Bytes) (start : Nat) : Option Nat :=
  findFromAux buf needle (buf.length + 1 - start) start

/-- `String.prototype.includes` / `Buffer.prototype.includes`. -/
def containsSub (hay needle : Bytes) : Bool := (findFrom hay needle 0).isSome

/-- `buffer.slice(start, stop)` for the in-range indices the parser uses. -/
def sliceBytes (buf : Bytes) (start stop : Nat) : Bytes :=
  (buf.drop start).take (stop - start)

/-- The `if (buffer[position] === 13 && buffer[position+1] === 10) position += 2`
step after a boundary marker. -/
def skipCrlf (buf : Bytes) (p : Nat) : Nat :=
  if buf[p]? = some 13 ∧ buf[p + 1]? = some 10 then p + 2 else p

/-- `--boundary`, the part marker (`boundaryBuffer` in the source). -/
def partMarker (bnd : Bytes) : Bytes := [45, 45] ++ bnd

/-- `--boundary--`, the terminal marker (`boundaryEnd` in the source). -/
def endMarker (bnd : Bytes) : Bytes := [45, 45] ++ bnd ++ [45, 45]

/-- The literal `name="` searched for by the `/name="([^"]+)"/` regex. -/
def nameAttr : Bytes := ascii "name=\""

/-- The literal `filename=` tested with `headers.includes('filename=')`. -/
def filenameAttr : Bytes := ascii "filename="

/-- First-match semantics of `headers.match(/name="([^"]+)"/)`: at each
occurrence of the literal `name="` (scanned left to right) the capture is
the maximal run of non-quote bytes; the match succeeds there iff that run
is non-empty and is terminated by a closing quote, otherwise the engine
retries from the next position. -/
def extractNameAux (hdr : Bytes) : Nat → Nat → Option Bytes
  | 0, _ => none
  | fuel + 1, start =>
    match findFrom hdr nameAttr start with
    | none => none
    | some i =>
      let rest := hdr.drop (i + nameAttr.length)
      let run := rest.takeWhile (fun c => c != 34)
      if run ≠ [] ∧ run.length < rest.length then some run
      else extractNameAux hdr fuel (i + 1)

/-- Field-name extraction from a decoded header block. -/
def extractName (hdr : Bytes) : Option Bytes := extractNameAux hdr (hdr.length + 1) 0

/-- A parsed part value: a raw byte buffer for file parts, decoded text for
ordinary fields (text is kept as its byte sequence in this embedding). -/
inductive PartValue where
  | file (content : Bytes)
  | text (content : Bytes)
deriving DecidableEq

/-- The `parts` object: an insertion-ordered string-keyed map. -/
abbrev Parts := List (Bytes × PartValue)

/-- `parts[fieldName] = value`: JavaScript object assignment overwrites an
existing key in place and appends a fresh key. -/
def setPart (ps : Parts) (k : Bytes) (v : PartValue) : Parts :=
  if ps.any (fun q => q.1 == k) then
    ps.map (fun q => if q.1 == k then (k, v) else q)
  else ps ++ [(k, v)]

/-- `parts[fieldName]` lookup. -/
def getPart (ps : Parts) (k : Bytes) : Option PartValue :=
  (ps.find? (fun q => q.1 == k)).map (fun q => q.2)

theorem skipCrlf_ge (buf : Bytes) (p : Nat) : p ≤ skipCrlf buf p := by
  unfold skipCrlf; split <;> omega

theorem findFromAux_le {buf needle : Bytes} :
    ∀ {fuel start i}, findFromAux buf needle fuel start = some i → start ≤ i := by
  intro fuel
  induction fuel with
  | zero => intro s i h; simp [findFromAux] at h
  | succ m ih =>
    intro s i h
    simp only [findFromAux] at h
    split at h
    · split at h
      · cases h; exact Nat.le_refl _
      · exact Nat.le_trans (Nat.le_succ s) (ih h)
    · cases h

theorem findFrom_le {buf needle : Bytes} {s i : Nat}
    (h : findFrom buf needle s = some i) : s ≤ i :=
  findFromAux_le h
def parseLoop (buf marker endM : Bytes) (pos : Nat) (acc : Parts) : Parts :=
  if pos < buf.length then
    match hb : findFrom buf marker pos with
    | none => acc
    | some boundaryIndex =>
      if endM.isPrefixOf (buf.drop boundaryIndex) then acc
      else
        match hh : findFrom buf crlfcrlf (skipCrlf buf (boundaryIndex + marker.length)) with
        | none => acc
        | some headersEnd =>
          match extractName (sliceBytes buf (skipCrlf buf (boundaryIndex + marker.length)) headersEnd) with
          | none => parseLoop buf marker endM (headersEnd + 4) acc
          | some fieldName =>
            match hn : findFrom buf marker (headersEnd + 4) with
            | none => acc
            | some nextB =>
              parseLoop buf marker endM nextB
                (setPart acc fieldName
                  (if containsSub
                        (sliceBytes buf (skipCrlf buf (boundaryIndex + marker.length)) headersEnd)
                        filenameAttr
                   then PartValue.file (sliceBytes buf (headersEnd + 4) (nextB - 2))
                   else PartValue.text (sliceBytes buf (headersEnd + 4) (nextB - 2))))
  else acc
termination_by buf.length - pos
decreasing_by
  · have h1 := findFrom_le hb
    have h2 := findFrom_le hh
    have h3 := skipCrlf_ge buf (boundaryIndex + marker.length)
    omega
  · have h1 := findFrom_le hb
    have h2 := findFrom_le hh
    have h3 := skipCrlf_ge buf (boundaryIndex + marker.length)
    have h4 := findFrom_le hn
    omega

/-- Node's forgiving base64 decoder: non-alphabet bytes (including `=`
padding) are skipped, then 6-bit groups are packed into bytes. -/
def b64Val (c : Nat) : Option Nat :=
  if 65 ≤ c ∧ c ≤ 90 then some (c - 65)
  else if 97 ≤ c ∧ c ≤ 122 then some (c - 71)
  else if 48 ≤ c ∧ c ≤ 57 then some (c + 4)
  else if c = 43 then some 62
  else if c = 47 then some 63
  else none

def b64Group : List Nat → Bytes
  | a :: b :: c :: d :: rest =>
    (a * 4 + b / 16) :: ((b % 16) * 16 + c / 4) :: ((c % 4) * 64 + d) :: b64Group rest
  | [a, b] => [a * 4 + b / 16]
  | [a, b, c] => [a * 4 + b / 16, (b % 16) * 16 + c / 4]
  | _ => []

def base64Decode (s : Bytes) : Bytes := b64Group (s.filterMap b64Val)

/-- `Buffer.from(body, isBase64Encoded ? 'base64' : 'binary')`: the binary
('latin1') decode of an already-byte-valued body is the identity. -/
def decodeBody (body : Bytes) (isBase64Encoded : Bool) : Bytes :=
  if isBase64Encoded then base64Decode body else body

/-- `parseMultipartFormData(body, boundary, isBase64Encoded)`. -/
def parseMultipartFormData (body bnd : Bytes) (isBase64Encoded : Bool) : Parts :=
  parseLoop (decodeBody body isBase64Encoded) (partMarker bnd) (endMarker bnd) 0 []

/-- Fuel-indexed copy of the scan loop, used to bound the number of loop
iterations (claim C10): the loop body is identical, but at most `fuel`
iterations are performed. -/
def parseLoopFuel (buf marker endM : Bytes) : Nat → Nat → Parts → Parts
  | 0, _, acc => acc
  | fuel + 1, pos, acc =>
    if pos < buf.length then
      match findFrom buf marker pos with
      | none => acc
      | some boundaryIndex =>
        if endM.isPrefixOf (buf.drop boundaryIndex) then acc
        else
          match findFrom buf crlfcrlf (skipCrlf buf (boundaryIndex + marker.length)) with
          | none => acc
          | some headersEnd =>
            match extractName (sliceBytes buf (skipCrlf buf (boundaryIndex + marker.length)) headersEnd) with
            | none => parseLoopFuel buf marker endM fuel (headersEnd + 4) acc
            | some fieldName =>
              match findFrom buf marker (headersEnd + 4) with
              | none => acc
              | some nextB =>
                parseLoopFuel buf marker endM fuel nextB
                  (setPart acc fieldName
                    (if containsSub
                          (sliceBytes buf (skipCrlf buf (boundaryIndex + marker.length)) headersEnd)
                          filenameAttr
                     then PartValue.file (sliceBytes buf (headersEnd + 4) (nextB - 2))
                     else PartValue.text (sliceBytes buf (headersEnd + 4) (nextB - 2))))
    else acc

/-! ### A reference encoder for multipart bodies

The repository has no encoder; this one follows the testable round-trip
property of the specification (build a body with boundary `X`, parse it
back).  A part is described by an optional field name, a file flag and its
content bytes. -/

structure PartSpec where
  name : Option Bytes
  isFile : Bool
  content : Bytes
deriving DecidableEq

def dispPrefix : Bytes := ascii "Content-Disposition: form-data"

def fileSuffix : Bytes := ascii "; filename=\"upload\""

/-- The header block emitted for a part: a content-disposition line with an
optional `name="..."` attribute and, for file parts, a `filename` attribute. -/
def headerFor (p : PartSpec) : Bytes :=
  dispPrefix ++
    (match p.name with
     | some n => [59, 32] ++ nameAttr ++ n ++ [34]
     | none => []) ++
    (if p.isFile then fileSuffix else [])

/-- One encoded part: marker, CRLF, headers, blank line, content, CRLF. -/
def encodePart (bnd : Bytes) (p : PartSpec) : Bytes :=
  partMarker bnd ++ crlf ++ headerFor p ++ crlfcrlf ++ p.content ++ crlf

/-- A complete well-formed multipart body: the encoded parts followed by
the terminal boundary and a final line break. -/
def buildBody (bnd : Bytes) (ps : List PartSpec) : Bytes :=
  (ps.map (encodePart bnd)).flatten ++ endMarker bnd ++ crlf

/-- A truncated body: the terminal boundary is missing, so the last part's
content is never delimited. -/
def bodyNoTerminal (bnd : Bytes) (ps : List PartSpec) : Bytes :=
  (ps.map (encodePart bnd)).flatten

/-- A truncated body: the final part's header block is never terminated by
a blank line. -/
def bodyNoHeaderEnd (bnd : Bytes) (ps : List PartSpec) (q : PartSpec) : Bytes :=
  (ps.map (encodePart bnd)).flatten ++ partMarker bnd ++ crlf ++ headerFor q

/-- The value the parser should store for a part. -/
def valueOf (p : PartSpec) : PartValue :=
  if p.isFile then PartValue.file p.content else PartValue.text p.content

/-- The effect of one parsed part on the accumulated map: unnamed parts are
dropped, named parts overwrite by key. -/
def insPart (a : Parts) (p : PartSpec) : Parts :=
  match p.name with
  | none => a
  | some n => setPart a n (valueOf p)

/-- The map expected from parsing a sequence of parts. -/
def mkParts (acc : Parts) (ps : List PartSpec) : Parts := ps.foldl insPart acc

/-- The part marker must not occur anywhere in the region scanned for a
part's content (the content itself, its trailing CRLF, and windows
straddling into the following marker). -/
def contentOk (bnd content : Bytes) : Prop :=
  ∀ j : Nat, j < content.length + 2 →
    (partMarker bnd).isPrefixOf ((content ++ crlf ++ partMarker bnd).drop j) = false

instance (bnd content : Bytes) : Decidable (contentOk bnd content) := by
  unfold contentOk; infer_instance

/-- Well-formedness of one part, phrased through the parser's own header
analysis: the header block contains no CR byte (so the blank-line search
finds the real separator), the regex extracts exactly the part's name, the
`filename=` test agrees with the part's file flag, and the boundary marker
does not occur in the content region. -/
def ValidPart (bnd : Bytes) (p : PartSpec) : Prop :=
  (∀ c ∈ headerFor p, c ≠ 13)
  ∧ extractName (headerFor p) = p.name
  ∧ containsSub (headerFor p) filenameAttr = p.isFile
  ∧ contentOk bnd p.content

instance (bnd : Bytes) (p : PartSpec) : Decidable (ValidPart bnd p) := by
  unfold ValidPart; infer_instance

/-- Well-formedness of a whole body: non-empty boundary, every part valid. -/
def WFBody (bnd : Bytes) (ps : List PartSpec) : Prop :=
  bnd ≠ [] ∧ ∀ p ∈ ps, ValidPart bnd p

instance (bnd : Bytes) (ps : List PartSpec) : Decidable (WFBody bnd ps) := by
  unfold WFBody; infer_instance

/-! ### The handler (`exports.handler` in the source)

The external collaborators (network fetch, sharp metadata / encode) are
oracles supplied through an environment; `none` models a thrown error,
caught by the handler's top-level try/catch. -/

/-- JavaScript numeric values as they flow through the handler: `null`,
`NaN`, or an integer (the only numbers `parseInt` produces here). -/
inductive JSNum where
  | null
  | nan
  | int (n : Int)
deriving DecidableEq

def truthyNum : JSNum → Bool
  | .null => false
  | .nan => false
  | .int n => n != 0

def isNaNJS : JSNum → Bool
  | .nan => true
  | _ => false

/-- `v <= 0` under JavaScript comparison semantics (`null` coerces to 0,
comparisons with `NaN` are false). -/
def jsLeZero : JSNum → Bool
  | .int n => decide (n ≤ 0)
  | .nan => false
  | .null => true

def isJsWhitespace (c : Nat) : Bool :=
  c == 32 || c == 9 || c == 10 || c == 11 || c == 12 || c == 13

/-- `parseInt(s, 10)`: skip whitespace, optional sign, then the leading
run of decimal digits; `NaN` when there is none. -/
def parseIntJS (s : Bytes) : JSNum :=
  let t := s.dropWhile isJsWhitespace
  let t2 := if t.head? = some 45 ∨ t.head? = some 43 then t.tail else t
  let ds := t2.takeWhile (fun c => decide (48 ≤ c ∧ c ≤ 57))
  if ds.isEmpty then JSNum.nan
  else
    let v : Nat := ds.foldl (fun a c => a * 10 + (c - 48)) 0
    JSNum.int (if t.head? = some 45 then -(v : Int) else (v : Int))

/-- `raw ? parseInt(raw, 10) : null` for a JSON string field. -/
def jsonDim (raw : Option Bytes) : JSNum :=
  match raw with
  | none => JSNum.null
  | some s => if s.isEmpty then JSNum.null else parseIntJS s

/-- `parts.maxWidth ? parseInt(parts.maxWidth, 10) : null` for a parsed
multipart field (a Buffer, even an empty one, is truthy). -/
def partDim (v : Option PartValue) : JSNum :=
  match v with
  | none => JSNum.null
  | some (PartValue.text s) => if s.isEmpty then JSNum.null else parseIntJS s
  | some (PartValue.file c) => parseIntJS c

/-- The validation test `maxWidth && (isNaN(maxWidth) || maxWidth <= 0)`
guarding the 400 response. -/
def dimRejected (v : JSNum) : Bool := truthyNum v && (isNaNJS v || jsLeZero v)

inductive Format where
  | webp
  | avif
deriving DecidableEq

/-- ASCII `toLowerCase`. -/
def toLowerB (s : Bytes) : Bytes :=
  s.map (fun c => if 65 ≤ c ∧ c ≤ 90 then c + 32 else c)

/-- `a || b || ''` over possibly-absent header strings. -/
def jsOrBytes (a b : Option Bytes) : Bytes :=
  match a with
  | some s => if s.isEmpty then (match b with | some t => t | none => []) else s
  | none => match b with | some t => t | none => []

def avifDot : Bytes := ascii "avif."
def webpDot : Bytes := ascii "webp."
def schemeAvifDot : Bytes := ascii "://avif."
def schemeWebpDot : Bytes := ascii "://webp."

/-- Default output format selection from the forwarded-host/host header
(lines 36-42 of the source): note the `includes` tests look for
`://avif.` / `://webp.`, not for a bare `avif.` / `webp.`. -/
def hostFormat (xfh hostHdr : Option Bytes) : Format :=
  let host := toLowerB (jsOrBytes xfh hostHdr)
  if avifDot.isPrefixOf host || containsSub host schemeAvifDot then Format.avif
  else if webpDot.isPrefixOf host || containsSub host schemeWebpDot then Format.webp
  else Format.avif

/-- Override of the host-derived format by an explicit JSON `format` field
(applies only when the lowercased value is `avif` or `webp`). -/
def overrideFormat (base : Format) (raw : Option Bytes) : Format :=
  match raw with
  | none => base
  | some s =>
    if s.isEmpty then base
    else if toLowerB s = ascii "avif" then Format.avif
    else if toLowerB s = ascii "webp" then Format.webp
    else base

/-- Override by a multipart `format` part (`String(parts.format)`). -/
def overrideFormatPart (base : Format) (v : Option PartValue) : Format :=
  match v with
  | none => base
  | some (PartValue.text s) =>
    if s.isEmpty then base
    else if toLowerB s = ascii "avif" then Format.avif
    else if toLowerB s = ascii "webp" then Format.webp
    else base
  | some (PartValue.file c) =>
    if toLowerB c = ascii "avif" then Format.avif
    else if toLowerB c = ascii "webp" then Format.webp
    else base

def dataImagePrefix : Bytes := ascii "data:image/"
def base64Comma : Bytes := ascii ";base64,"

/-- `s.replace(/^data:image\/[a-z]+;base64,/, '')`: strip the anchored
data-URL prefix when present (greedy non-empty lowercase subtype run
followed by the literal `;base64,`), otherwise leave `s` unchanged. -/
def stripDataUrl (s : Bytes) : Bytes :=
  if dataImagePrefix.isPrefixOf s then
    let r := s.drop dataImagePrefix.length
    let run := r.takeWhile (fun c => decide (97 ≤ c ∧ c ≤ 122))
    if !run.isEmpty && base64Comma.isPrefixOf (r.drop run.length) then
      r.drop (run.length + base64Comma.length)
    else s
  else s

/-- The fields of a parsed JSON request body that the handler reads. -/
structure JsonBody where
  imageUrl : Option Bytes := none
  imageBase64 : Option Bytes := none
  image : Option Bytes := none
  maxWidth : Option Bytes := none
  maxHeight : Option Bytes := none
  format : Option Bytes := none

def truthyStr : Option Bytes → Bool
  | some s => !s.isEmpty
  | none => false

def orEmptyB (o : Option Bytes) : Bytes :=
  match o with
  | some s => s
  | none => []

def fetchFailedMsg : Bytes := ascii "Failed to fetch image from URL"
def noImageMsg : Bytes := ascii "No image provided"

/-- The JSON-body image-source resolution (lines 49-78): `imageUrl` first
(400 when the fetch response is not ok), then `imageBase64`, then `image`
(both stripped of a data-URL prefix and base64-decoded), else a 400. -/
def resolveImageSource (fetch : Bytes → Option Bytes) (b : JsonBody) : Except Bytes Bytes :=
  if truthyStr b.imageUrl then
    match fetch (orEmptyB b.imageUrl) with
    | some bytes => Except.ok bytes
    | none => Except.error fetchFailedMsg
  else if truthyStr b.imageBase64 then
    Except.ok (base64Decode (stripDataUrl (orEmptyB b.imageBase64)))
  else if truthyStr b.image then
    Except.ok (base64Decode (stripDataUrl (orEmptyB b.image)))
  else Except.error noImageMsg

/-- The `resizeOptions` object passed to `pipeline.resize`. -/
structure ResizeOptions where
  width : Option Int := none
  height : Option Int := none
  fit : Option Bytes := none
deriving DecidableEq

def jsToInt : JSNum → Int
  | JSNum.int n => n
  | _ => 0

/-- `x > v` under JavaScript comparison semantics. -/
def jsGT (x : Int) : JSNum → Bool
  | JSNum.int m => decide (x > m)
  | JSNum.nan => false
  | JSNum.null => decide (x > 0)

/-- The resize-planning block (lines 153-177 of the source). -/
def computeResize (maxWidth maxHeight : JSNum) (w h : Int) : ResizeOptions :=
  if truthyNum maxWidth || truthyNum maxHeight then
    if truthyNum maxWidth && !truthyNum maxHeight then
      if jsGT w maxWidth then { width := some (jsToInt maxWidth) } else {}
    else if truthyNum maxHeight && !truthyNum maxWidth then
      if jsGT h maxHeight then { height := some (jsToInt maxHeight) } else {}
    else if truthyNum maxWidth && truthyNum maxHeight then
      if jsGT w maxWidth || jsGT h maxHeight then
        { width := some (jsToInt maxWidth), height := some (jsToInt maxHeight),
          fit := some (ascii "inside") }
      else {}
    else {}
  else {}

/-- `Object.keys(resizeOptions).length > 0`, the test guarding
`pipeline.resize(resizeOptions)`. -/
def resizeRequested (r : ResizeOptions) : Bool :=
  r.width.isSome || r.height.isSome || r.fit.isSome

structure Response where
  statusCode : Nat
  headers : List (Bytes × Bytes)
  body : Bytes
  isBase64Encoded : Bool := false

def corsHeaders : List (Bytes × Bytes) :=
  [(ascii "Access-Control-Allow-Origin", ascii "*"),
   (ascii "Access-Control-Allow-Headers", ascii "Content-Type"),
   (ascii "Access-Control-Allow-Methods", ascii "POST, OPTIONS")]

def clientError (msg : Bytes) : Response :=
  { statusCode := 400, headers := corsHeaders, body := msg }

/-- External collaborators: network fetch (`none` models a not-ok
response) and the sharp metadata / encode operations (`none` models a
thrown decode or encode error). -/
structure Env where
  fetch : Bytes → Option Bytes
  metadata : Bytes → Option (Int × Int)
  encodeImg : Bytes → ResizeOptions → Format → Option Bytes

def intStr (n : Int) : Bytes :=
  (if n < 0 then [45] else []) ++ (Nat.toDigits 10 n.natAbs).map Char.toNat

def formatContentType : Format → Bytes
  | Format.avif => ascii "image/avif"
  | Format.webp => ascii "image/webp"

def formatDisposition : Format → Bytes
  | Format.avif => ascii "inline; filename=\"converted.avif\""
  | Format.webp => ascii "inline; filename=\"converted.webp\""

def formatName : Format → Bytes
  | Format.avif => ascii "avif"
  | Format.webp => ascii "webp"

/-- The sharp pipeline (lines 147-217): metadata, resize planning, encode
at the selected format, re-measured output metadata, success response. -/
def processImage (env : Env) (imageBuffer : Bytes) (maxWidth maxHeight : JSNum)
    (fmt : Format) : Except Bytes Response :=
  match env.metadata imageBuffer with
  | none => Except.error (ascii "input metadata failed")
  | some wh =>
    match env.encodeImg imageBuffer (computeResize maxWidth maxHeight wh.1 wh.2) fmt with
    | none => Except.error (ascii "encode failed")
    | some outBuf =>
      match env.metadata outBuf with
      | none => Except.error (ascii "output metadata failed")
      | some fwh =>
        Except.ok
          { statusCode := 200,
            headers := corsHeaders ++
              [(ascii "Content-Type", formatContentType fmt),
               (ascii "Content-Disposition", formatDisposition fmt),
               (ascii "X-Original-Width", intStr wh.1),
               (ascii "X-Original-Height", intStr wh.2),
               (ascii "X-Final-Width", intStr fwh.1),
               (ascii "X-Final-Height", intStr fwh.2),
               (ascii "X-Output-Format", formatName fmt)],
            body := outBuf, isBase64Encoded := true }

def mpNoImageMsg : Bytes := ascii "No image file provided"
def ctErrorMsg : Bytes := ascii "Content-Type must be multipart/form-data or application/json"
def boundaryErrMsg : Bytes := ascii "Invalid multipart/form-data boundary"
def maxWidthErrMsg : Bytes := ascii "maxWidth must be a positive number"
def maxHeightErrMsg : Bytes := ascii "maxHeight must be a positive number"

/-- The shared validation of `maxWidth`/`maxHeight` (lines 130-145)
followed by the processing pipeline. -/
def afterResolve (env : Env) (buf : Bytes) (mw mh : JSNum) (fmt : Format) :
    Except Bytes Response :=
  if dimRejected mw then Except.ok (clientError maxWidthErrMsg)
  else if dimRejected mh then Except.ok (clientError maxHeightErrMsg)
  else processImage env buf mw mh fmt

def boundaryParam : Bytes := ascii "boundary="

/-- `contentType.split('boundary=')[1]` followed by the `!boundary` test:
the segment between the first occurrence of `boundary=` and the next one
(or the end of the string); missing or empty means a 400. -/
def boundaryFrom (ct : Bytes) : Option Bytes :=
  match findFrom ct boundaryParam 0 with
  | none => none
  | some i =>
    let rest := ct.drop (i + boundaryParam.length)
    let seg := match findFrom rest boundaryParam 0 with
      | none => rest
      | some j => rest.take j
    if seg.isEmpty then none else some seg

/-- The request event, with the JSON body pre-parsed (`none` models a
`JSON.parse` throw) and the multipart body kept as its raw bytes. -/
structure Event where
  httpMethod : Bytes
  contentTypeLower : Option Bytes := none
  contentTypeCap : Option Bytes := none
  xForwardedHost : Option Bytes := none
  hostHeader : Option Bytes := none
  jsonBody : Option JsonBody := none
  body : Bytes := []
  isBase64Encoded : Bool := false

/-- Truthiness of `parts.image`: a Buffer (file part) is always truthy, a
text field is truthy when non-empty. -/
def partTruthy : Option PartValue → Bool
  | none => false
  | some (PartValue.file _) => true
  | some (PartValue.text s) => !s.isEmpty

def partContent : Option PartValue → Bytes
  | none => []
  | some (PartValue.file c) => c
  | some (PartValue.text s) => s

/-- The body of the handler's try block (lines 29-217). -/
def tryHandler (env : Env) (e : Event) : Except Bytes Response :=
  let contentType := jsOrBytes e.contentTypeLower e.contentTypeCap
  let fmt0 := hostFormat e.xForwardedHost e.hostHeader
  if containsSub contentType (ascii "application/json") then
    match e.jsonBody with
    | none => Except.error (ascii "JSON.parse failed")
    | some b =>
      match resolveImageSource env.fetch b with
      | Except.error msg => Except.ok (clientError msg)
      | Except.ok buf =>
        afterResolve env buf (jsonDim b.maxWidth) (jsonDim b.maxHeight)
          (overrideFormat fmt0 b.format)
  else if containsSub contentType (ascii "multipart/form-data") then
    match boundaryFrom contentType with
    | none => Except.ok (clientError boundaryErrMsg)
    | some bnd =>
      let parts := parseMultipartFormData e.body bnd e.isBase64Encoded
      if partTruthy (getPart parts (ascii "image")) then
        afterResolve env (partContent (getPart parts (ascii "image")))
          (partDim (getPart parts (ascii "maxWidth")))
          (partDim (getPart parts (ascii "maxHeight")))
          (overrideFormatPart fmt0 (getPart parts (ascii "format")))
      else Except.ok (clientError mpNoImageMsg)
  else Except.ok (clientError ctErrorMsg)

/-- `exports.handler`: OPTIONS preflight, method check, try/catch around
the processing body (a caught error becomes the 500 response). -/
def handler (env : Env) (e : Event) : Response :=
  if e.httpMethod = ascii "OPTIONS" then
    { statusCode := 200, headers := corsHeaders, body := [] }
  else if e.httpMethod ≠ ascii "POST" then
    { statusCode := 405, headers := corsHeaders, body := ascii "Method not allowed. Use POST." }
  else
    match tryHandler env e with
    | Except.ok r => r
    | Except.error msg =>
      { statusCode := 500, headers := corsHeaders,
        body := ascii "Failed to process image: " ++ msg }

/-- The three CORS headers every response must carry. -/
def hasCors (r : Response) : Prop :=
  (ascii "Access-Control-Allow-Origin", ascii "*") ∈ r.headers ∧
  (ascii "Access-Control-Allow-Headers", ascii "Content-Type") ∈ r.headers ∧
  (ascii "Access-Control-Allow-Methods", ascii "POST, OPTIONS") ∈ r.headers


/-! ### Concrete instances used by the witnesses -/

def bndW : Bytes := ascii "Xq"

def partA : PartSpec := ⟨some (ascii "alpha"), false, ascii "hi"⟩

def partB : PartSpec := ⟨some (ascii "image"), true, [0, 1, 255, 2]⟩

def partU : PartSpec := ⟨none, false, ascii "zz"⟩

/-- The file part named `image` of the round-trip property. -/
def imagePartOf (data : Bytes) : PartSpec := ⟨some (ascii "image"), true, data⟩

/-- The text part `maxWidth = "100"` of the round-trip property. -/
def maxWidth100Part : PartSpec := ⟨some (ascii "maxWidth"), false, ascii "100"⟩

/-- A format parameter that actually takes effect: non-empty and, after
lowercasing, exactly `avif` or `webp`. -/
def validFormatParam : Option Bytes → Bool
  | none => false
  | some s => !s.isEmpty && (toLowerB s == ascii "avif" || toLowerB s == ascii "webp")

def webpSubHost : Bytes := ascii "x.webp.example.com"

/-- A benign oracle environment for concrete handler runs. -/
def envW : Env :=
  { fetch := fun _ => none,
    metadata := fun _ => some (5, 5),
    encodeImg := fun _ _ _ => some [1] }

/-- A JSON request carrying a base64 image and the maxWidth value "abc". -/
def eventMaxWidthAbc : Event :=
  { httpMethod := ascii "POST",
    contentTypeLower := some (ascii "application/json"),
    jsonBody := some { imageBase64 := some (ascii "QUJD"), maxWidth := some (ascii "abc") } }

def fetchW : Bytes → Option Bytes := fun _ => none

def jsonBodyW : JsonBody := { imageBase64 := some (ascii "QUJD") }

/-! ### Facts about `findFrom` -/

theorem isPrefixOf_eq_take {n l : Bytes} : n.isPrefixOf l = true ↔ l.take n.length = n := by
  rw [List.isPrefixOf_iff_prefix, List.prefix_iff_eq_take]
  exact ⟨fun h => h.symm, fun h => h.symm⟩

theorem length_le_of_isPrefixOf {n l : Bytes} (h : n.isPrefixOf l = true) :
    n.length ≤ l.length :=
  (List.isPrefixOf_iff_prefix.mp h).length_le

theorem window_le_of_isPrefixOf_drop {buf n : Bytes} {i : Nat} (hn : n ≠ [])
    (h : n.isPrefixOf (buf.drop i) = true) : i + n.length ≤ buf.length := by
  have h1 := length_le_of_isPrefixOf h
  rw [List.length_drop] at h1
  have h2 : 1 ≤ n.length := by
    cases n with
    | nil => exact absurd rfl hn
    | cons a l => simp
  omega

theorem findFromAux_eq_some {buf n : Bytes} :
    ∀ {fuel s i}, findFromAux buf n fuel s = some i →
      s ≤ i ∧ n.isPrefixOf (buf.drop i) = true ∧
        ∀ j, s ≤ j → j < i → n.isPrefixOf (buf.drop j) = false := by
  intro fuel
  induction fuel with
  | zero => intro s i h; simp [findFromAux] at h
  | succ m ih =>
    intro s i h
    simp only [findFromAux] at h
    split at h
    · rename_i hwin
      split at h
      · rename_i hpre
        cases h
        exact ⟨Nat.le_refl _, hpre, fun j h1 h2 => absurd h1 (by omega)⟩
      · rename_i hpre
        obtain ⟨h1, h2, h3⟩ := ih h
        refine ⟨by omega, h2, fun j hj1 hj2 => ?_⟩
        rcases Nat.eq_or_lt_of_le hj1 with rfl | hj
        · rw [Bool.not_eq_true] at hpre; exact hpre
        · exact h3 j hj hj2
    · cases h

theorem findFromAux_eq_none {buf n : Bytes} (hn : n ≠ []) :
    ∀ {fuel s}, buf.length + 1 ≤ fuel + s → findFromAux buf n fuel s = none →
      ∀ j, s ≤ j → n.isPrefixOf (buf.drop j) = false := by
  intro fuel
  induction fuel with
  | zero =>
    intro s hfs _ j hj
    cases hp : n.isPrefixOf (buf.drop j)
    · rfl
    · exact absurd (window_le_of_isPrefixOf_drop hn hp)
        (by have := length_le_of_isPrefixOf hp; omega)
  | succ m ih =>
    intro s hfs h j hj
    simp only [findFromAux] at h
    split at h
    · split at h
      · cases h
      · rename_i hpre
        rcases Nat.eq_or_lt_of_le hj with rfl | hj2
        · rw [Bool.not_eq_true] at hpre; exact hpre
        · exact ih (by omega) h j hj2
    · rename_i hwin
      cases hp : n.isPrefixOf (buf.drop j)
      · rfl
      · exact absurd (window_le_of_isPrefixOf_drop hn hp) (by omega)

theorem findFromAux_complete {buf n : Bytes} :
    ∀ {fuel s i}, i + 1 ≤ fuel + s → s ≤ i → i + n.length ≤ buf.length →
      n.isPrefixOf (buf.drop i) = true →
      (∀ j, s ≤ j → j < i → n.isPrefixOf (buf.drop j) = false) →
      findFromAux buf n fuel s = some i := by
  intro fuel
  induction fuel with
  | zero => intro s i h1 h2 _ _ _; omega
  | succ m ih =>
    intro s i h1 h2 h3 h4 h5
    simp only [findFromAux]
    rcases Nat.eq_or_lt_of_le h2 with rfl | hlt
    · rw [if_pos h3, if_pos h4]
    · have hwin : s + n.length ≤ buf.length := by omega
      rw [if_pos hwin, if_neg (by simp [h5 s (Nat.le_refl s) hlt])]
      exact ih (by omega) hlt h3 h4 (fun j hj1 hj2 => h5 j (by omega) hj2)

theorem findFrom_eq_some_iff {buf n : Bytes} (hn : n ≠ []) {s i : Nat} :
    findFrom buf n s = some i ↔
      s ≤ i ∧ n.isPrefixOf (buf.drop i) = true ∧
        ∀ j, s ≤ j → j < i → n.isPrefixOf (buf.drop j) = false := by
  constructor
  · exact findFromAux_eq_some
  · rintro ⟨h1, h2, h3⟩
    have hw := window_le_of_isPrefixOf_drop hn h2
    have h4 : 1 ≤ n.length := by
      cases n with
      | nil => exact absurd rfl hn
      | cons a l => simp
    exact findFromAux_complete (by omega) h1 hw h2 h3

theorem findFrom_eq_none_iff {buf n : Bytes} (hn : n ≠ []) {s : Nat} :
    findFrom buf n s = none ↔ ∀ j, s ≤ j → n.isPrefixOf (buf.drop j) = false := by
  constructor
  · intro h j hj
    rcases Nat.le_total s (buf.length + 1) with hs | hs
    · exact findFromAux_eq_none hn (by unfold findFrom at h; omega) h j hj
    · cases hp : n.isPrefixOf (buf.drop j)
      · rfl
      · exact absurd (window_le_of_isPrefixOf_drop hn hp) (by omega)
  · intro h
    cases hf : findFrom buf n s with
    | none => rfl
    | some i =>
      obtain ⟨h1, h2, _⟩ := findFromAux_eq_some hf
      simp [h i h1] at h2

theorem findFrom_self {buf n : Bytes} (hn : n ≠ []) {i : Nat}
    (h : n.isPrefixOf (buf.drop i) = true) : findFrom buf n i = some i :=
  (findFrom_eq_some_iff hn).mpr ⟨Nat.le_refl _, h, fun j h1 h2 => absurd h1 (by omega)⟩

theorem findFrom_window {buf n : Bytes} (hn : n ≠ []) {s i : Nat}
    (h : findFrom buf n s = some i) : i + n.length ≤ buf.length :=
  window_le_of_isPrefixOf_drop hn (findFromAux_eq_some h).2.1

/-! ### Positional reasoning helpers -/

theorem isPrefixOf_append_cancel {a x y : Bytes} :
    (a ++ x).isPrefixOf (a ++ y) = x.isPrefixOf y := by
  cases hp : x.isPrefixOf y with
  | true =>
    rw [List.isPrefixOf_iff_prefix] at hp ⊢
    exact (List.prefix_append_right_inj a).mpr hp
  | false =>
    cases hq : (a ++ x).isPrefixOf (a ++ y) with
    | false => rfl
    | true =>
      rw [List.isPrefixOf_iff_prefix] at hq
      have hxy := (List.prefix_append_right_inj a).mp hq
      rw [← List.isPrefixOf_iff_prefix] at hxy
      simp [hp] at hxy

theorem isPrefixOf_append_left_eq {n x t : Bytes} (h : n.length ≤ x.length) :
    n.isPrefixOf (x ++ t) = n.isPrefixOf x := by
  cases hp : n.isPrefixOf x with
  | true =>
    have h1 := isPrefixOf_eq_take.mp hp
    refine isPrefixOf_eq_take.mpr ?_
    rw [List.take_append_eq_append_take, Nat.sub_eq_zero_of_le h, List.take_zero,
      List.append_nil, h1]
  | false =>
    cases hq : n.isPrefixOf (x ++ t) with
    | false => rfl
    | true =>
      exfalso
      have h1 := isPrefixOf_eq_take.mp hq
      rw [List.take_append_eq_append_take, Nat.sub_eq_zero_of_le h, List.take_zero,
        List.append_nil] at h1
      rw [isPrefixOf_eq_take.mpr h1] at hp
      cases hp

theorem drop_append_of_le {x t : Bytes} {j : Nat} (h : j ≤ x.length) :
    (x ++ t).drop j = x.drop j ++ t := by
  rw [List.drop_append_eq_append_drop, Nat.sub_eq_zero_of_le h, List.drop_zero]

theorem isPrefixOf_drop_append_window {n x t : Bytes} {j : Nat}
    (h : j + n.length ≤ x.length) :
    n.isPrefixOf ((x ++ t).drop j) = n.isPrefixOf (x.drop j) := by
  rw [drop_append_of_le (by omega)]
  exact isPrefixOf_append_left_eq (by rw [List.length_drop]; omega)

theorem isPrefixOf_head {c : Nat} {n l : Bytes} (h : (c :: n).isPrefixOf l = true) :
    l[0]? = some c := by
  cases l with
  | nil => simp [List.isPrefixOf] at h
  | cons a as =>
    simp only [List.isPrefixOf, Bool.and_eq_true, beq_iff_eq] at h
    simp [h.1]

theorem getElem?_append_length {a l : Bytes} (k : Nat) :
    (a ++ l)[a.length + k]? = l[k]? := by
  rw [List.getElem?_append_right (by omega)]
  simp

theorem length_eq_of_drop_eq {buf S : Bytes} {off : Nat} (hoff : off ≤ buf.length)
    (h : buf.drop off = S) : buf.length = off + S.length := by
  have h1 := congrArg List.length h
  rw [List.length_drop] at h1
  omega

theorem findFrom_shift {pre suf n : Bytes} (hn : n ≠ []) (k : Nat) :
    findFrom (pre ++ suf) n (pre.length + k)
      = (findFrom suf n k).map (fun i => pre.length + i) := by
  cases hf : findFrom suf n k with
  | none =>
    simp only [Option.map_none']
    rw [findFrom_eq_none_iff hn]
    intro j hj
    have h1 : (pre ++ suf).drop j = suf.drop (j - pre.length) := by
      rw [List.drop_append_eq_append_drop, List.drop_eq_nil_of_le (by omega),
        List.nil_append]
    rw [h1]
    exact (findFrom_eq_none_iff hn).mp hf _ (by omega)
  | some i =>
    simp only [Option.map_some']
    obtain ⟨h1, h2, h3⟩ := (findFrom_eq_some_iff hn).mp hf
    rw [findFrom_eq_some_iff hn]
    refine ⟨by omega, ?_, ?_⟩
    · rw [List.drop_append]
      exact h2
    · intro j hj1 hj2
      have h4 : (pre ++ suf).drop j = suf.drop (j - pre.length) := by
        rw [List.drop_append_eq_append_drop, List.drop_eq_nil_of_le (by omega),
          List.nil_append]
      rw [h4]
      exact h3 (j - pre.length) (by omega) (by omega)

theorem findFrom_shift_drop {buf n : Bytes} (hn : n ≠ []) {off : Nat}
    (hoff : off ≤ buf.length) (k : Nat) :
    findFrom buf n (off + k) = (findFrom (buf.drop off) n k).map (fun i => off + i) := by
  have hlen : (buf.take off).length = off := by rw [List.length_take]; omega
  conv_lhs => rw [← List.take_append_drop off buf]
  rw [show off + k = (buf.take off).length + k by rw [hlen]]
  rw [findFrom_shift hn k, hlen]

/-! ### Sub-lemmas for one parse step over an encoded part -/

theorem partMarker_ne (bnd : Bytes) : partMarker bnd ≠ [] := by
  simp [partMarker]

theorem crlfcrlf_ne : crlfcrlf ≠ ([] : Bytes) := by simp [crlfcrlf]

theorem getElem?_append_self {a l : Bytes} : (a ++ l)[a.length]? = l[0]? := by
  simpa using @getElem?_append_length a l 0

theorem getElem?_append_one {a l : Bytes} : (a ++ l)[a.length + 1]? = l[1]? :=
  getElem?_append_length 1

theorem skipCrlf_after {buf M R : Bytes} {off : Nat}
    (h : buf.drop off = M ++ (13 :: 10 :: R)) :
    skipCrlf buf (off + M.length) = off + M.length + 2 := by
  unfold skipCrlf
  rw [if_pos]
  constructor
  · rw [← List.getElem?_drop, h, getElem?_append_self]; rfl
  · rw [show off + M.length + 1 = off + (M.length + 1) by omega, ← List.getElem?_drop, h,
      getElem?_append_one]
    simp

theorem sliceBytes_exact {buf H R : Bytes} {a : Nat}
    (h : buf.drop a = H ++ R) : sliceBytes buf a (a + H.length) = H := by
  unfold sliceBytes
  rw [h, Nat.add_sub_cancel_left, List.take_left]

theorem drop_of_drop_append {buf A R : Bytes} {off : Nat}
    (h : buf.drop off = A ++ R) : buf.drop (off + A.length) = R := by
  rw [← List.drop_drop, h, List.drop_left]

theorem findFrom_crlfcrlf_inner {H R : Bytes} (hH : ∀ c ∈ H, c ≠ 13) :
    findFrom (H ++ (crlfcrlf ++ R)) crlfcrlf 0 = some H.length := by
  rw [findFrom_eq_some_iff crlfcrlf_ne]
  refine ⟨Nat.zero_le _, ?_, ?_⟩
  · rw [List.drop_left]
    exact List.isPrefixOf_iff_prefix.mpr (List.prefix_append _ _)
  · intro j hj1 hj2
    cases hp : crlfcrlf.isPrefixOf ((H ++ (crlfcrlf ++ R)).drop j) with
    | false => rfl
    | true =>
      exfalso
      have hp2 : ((13 : Nat) :: [10, 13, 10]).isPrefixOf ((H ++ (crlfcrlf ++ R)).drop j) = true := hp
      have hhead := isPrefixOf_head hp2
      rw [List.getElem?_drop, Nat.add_zero, List.getElem?_append_left hj2] at hhead
      exact hH 13 (List.getElem?_mem hhead) rfl

theorem findFrom_marker_inner {C M T : Bytes} (hM : M ≠ [])
    (hok : ∀ j : Nat, j < C.length + 2 → M.isPrefixOf ((C ++ crlf ++ M).drop j) = false) :
    findFrom (C ++ crlf ++ M ++ T) M 0 = some (C.length + 2) := by
  have hc : crlf.length = 2 := rfl
  rw [findFrom_eq_some_iff hM]
  refine ⟨Nat.zero_le _, ?_, ?_⟩
  · have h1 : ((C ++ crlf) ++ (M ++ T)).drop ((C ++ crlf).length) = M ++ T :=
      List.drop_left _ _
    have h2 : (C ++ crlf).length = C.length + 2 := by rw [List.length_append]; rfl
    rw [List.append_assoc (C ++ crlf) M T, ← h2, h1]
    exact List.isPrefixOf_iff_prefix.mpr (List.prefix_append _ _)
  · intro j hj1 hj2
    rw [isPrefixOf_drop_append_window
      (show j + M.length ≤ (C ++ crlf ++ M).length from by
        rw [List.length_append, List.length_append]
        have h2 := List.length_pos.mpr hM
        omega)]
    exact hok j hj2

theorem findFrom_marker_none_inner {C M : Bytes} (hM : M ≠ [])
    (hok : ∀ j : Nat, j < C.length + 2 → M.isPrefixOf ((C ++ crlf ++ M).drop j) = false) :
    findFrom (C ++ crlf) M 0 = none := by
  have hc : crlf.length = 2 := rfl
  have h2 := List.length_pos.mpr hM
  rw [findFrom_eq_none_iff hM]
  intro j hj
  cases hp : M.isPrefixOf ((C ++ crlf).drop j) with
  | false => rfl
  | true =>
    exfalso
    have hw := window_le_of_isPrefixOf_drop hM hp
    rw [List.length_append] at hw
    have hj2 : j < C.length + 2 := by omega
    have hdrop2 : ((C ++ crlf) ++ M).drop j = (C ++ crlf).drop j ++ M :=
      drop_append_of_le (by rw [List.length_append]; omega)
    have hp2 : M.isPrefixOf ((C ++ crlf ++ M).drop j) = true := by
      rw [hdrop2]
      rw [List.isPrefixOf_iff_prefix] at hp ⊢
      exact hp.trans (List.prefix_append _ _)
    rw [hok j hj2] at hp2
    cases hp2

/-! ### One parse step over an encoded part -/

theorem encodePart_length (bnd : Bytes) (p : PartSpec) :
    (encodePart bnd p).length
      = (partMarker bnd).length + 2 + (headerFor p).length + 4 + p.content.length + 2 := by
  simp [encodePart, crlf, crlfcrlf]
  omega

/-- One iteration of the scan loop consumes one encoded part: starting from
any cursor whose next marker occurrence is the part's leading marker, the
loop stores the part's value (named parts only) and continues from a cursor
whose next marker occurrence opens the following region. -/
theorem parseLoop_step (buf bnd : Bytes) (p : PartSpec) (hp : ValidPart bnd p)
    (off pos : Nat) (tail : Bytes)
    (hdrop : buf.drop off = encodePart bnd p ++ tail)
    (htail : (partMarker bnd).isPrefixOf tail = true)
    (hpos : findFrom buf (partMarker bnd) pos = some off) (acc : Parts) :
    ∃ pos', parseLoop buf (partMarker bnd) (endMarker bnd) pos acc
        = parseLoop buf (partMarker bnd) (endMarker bnd) pos' (insPart acc p)
      ∧ findFrom buf (partMarker bnd) pos' = some (off + (encodePart bnd p).length) := by
  obtain ⟨hH13, hname, hfile, hcok⟩ := hp
  have hMne : partMarker bnd ≠ [] := partMarker_ne bnd
  have hMpos : 0 < (partMarker bnd).length := List.length_pos.mpr hMne
  have hwin := findFrom_window hMne hpos
  have hple := findFrom_le hpos
  have hoffle : off ≤ buf.length := by omega
  have hblen : buf.length = off + ((encodePart bnd p).length + tail.length) := by
    have h1 := length_eq_of_drop_eq hoffle hdrop
    rwa [List.length_append] at h1
  have helen := encodePart_length bnd p
  have hposlt : pos < buf.length := by omega
  -- the suffix of the buffer at the part's start, in right-nested form
  have hS : buf.drop off
      = partMarker bnd ++ (13 :: 10 :: (headerFor p
          ++ (crlfcrlf ++ (p.content ++ (crlf ++ tail))))) := by
    rw [hdrop]
    simp [encodePart, crlf, List.append_assoc]
  -- the end-marker test fails on a regular part
  have hEM : endMarker bnd = partMarker bnd ++ [45, 45] := by
    simp [endMarker, partMarker, List.append_assoc]
  have hendF : (endMarker bnd).isPrefixOf (buf.drop off) = false := by
    rw [hS, hEM, isPrefixOf_append_cancel]
    simp [List.isPrefixOf]
  -- the CRLF after the marker is skipped
  have hskip : skipCrlf buf (off + (partMarker bnd).length)
      = off + (partMarker bnd).length + 2 := skipCrlf_after hS
  -- the view from the header block
  have hX : buf.drop (off + (partMarker bnd).length + 2)
      = headerFor p ++ (crlfcrlf ++ (p.content ++ (crlf ++ tail))) := by
    have hA : buf.drop off = (partMarker bnd ++ crlf)
        ++ (headerFor p ++ (crlfcrlf ++ (p.content ++ (crlf ++ tail)))) := by
      rw [hS]; simp [crlf, List.append_assoc]
    have h1 := drop_of_drop_append hA
    rwa [List.length_append, show crlf.length = 2 from rfl, ← Nat.add_assoc] at h1
  -- blank-line search lands at the end of the header block
  have hfindH : findFrom buf crlfcrlf (off + (partMarker bnd).length + 2)
      = some (off + (partMarker bnd).length + 2 + (headerFor p).length) := by
    have h0 : off + (partMarker bnd).length + 2 ≤ buf.length := by omega
    have h1 := findFrom_shift_drop crlfcrlf_ne h0 0
    rw [Nat.add_zero] at h1
    rw [h1, hX, findFrom_crlfcrlf_inner hH13]
    rfl
  -- the extracted header block
  have hslice : sliceBytes buf (off + (partMarker bnd).length + 2)
      (off + (partMarker bnd).length + 2 + (headerFor p).length) = headerFor p :=
    sliceBytes_exact hX
  -- the view from the content block
  have hC : buf.drop (off + (partMarker bnd).length + 2 + (headerFor p).length + 4)
      = p.content ++ (crlf ++ tail) := by
    have hA : buf.drop (off + (partMarker bnd).length + 2)
        = (headerFor p ++ crlfcrlf) ++ (p.content ++ (crlf ++ tail)) := by
      rw [hX]; simp [List.append_assoc]
    have h1 := drop_of_drop_append hA
    rwa [List.length_append, show crlfcrlf.length = 4 from rfl, ← Nat.add_assoc] at h1
  -- the following marker search lands at the end of the content
  obtain ⟨tail2, htail2⟩ := List.isPrefixOf_iff_prefix.mp htail
  have hok : ∀ j : Nat, j < p.content.length + 2 →
      (partMarker bnd).isPrefixOf
        ((p.content ++ crlf ++ partMarker bnd).drop j) = false := hcok
  have hfindM : findFrom buf (partMarker bnd)
      (off + (partMarker bnd).length + 2 + (headerFor p).length + 4)
      = some (off + (partMarker bnd).length + 2 + (headerFor p).length + 4
          + (p.content.length + 2)) := by
    have h0 : off + (partMarker bnd).length + 2 + (headerFor p).length + 4 ≤ buf.length := by
      omega
    have h1 := findFrom_shift_drop hMne h0 0
    rw [Nat.add_zero] at h1
    rw [h1]
    have hCr : buf.drop (off + (partMarker bnd).length + 2 + (headerFor p).length + 4)
        = p.content ++ crlf ++ partMarker bnd ++ tail2 := by
      rw [hC, ← htail2]; simp [List.append_assoc]
    rw [hCr, findFrom_marker_inner hMne hok]
    rfl
  -- the delimited content
  have hCslice : sliceBytes buf
      (off + (partMarker bnd).length + 2 + (headerFor p).length + 4)
      (off + (partMarker bnd).length + 2 + (headerFor p).length + 4 + p.content.length)
      = p.content := sliceBytes_exact hC
  -- the marker at the start of the next region
  have hnext : findFrom buf (partMarker bnd) (off + (encodePart bnd p).length)
      = some (off + (encodePart bnd p).length) := by
    refine findFrom_self hMne ?_
    rw [drop_of_drop_append hdrop]
    exact htail
  -- now walk the loop body
  rw [parseLoop.eq_def, if_pos hposlt]
  split
  · rename_i heq
    rw [hpos] at heq
    exact Option.noConfusion heq
  · rename_i bIdx heq
    rw [hpos] at heq
    injection heq with heq
    subst heq
    rw [if_neg (by rw [hendF]; exact Bool.false_ne_true)]
    rw [hskip]
    split
    · rename_i heq2
      rw [hfindH] at heq2
      exact Option.noConfusion heq2
    · rename_i headersEnd heq2
      rw [hfindH] at heq2
      injection heq2 with heq2
      subst heq2
      rw [hslice, hname]
      split
      · rename_i hnm
        refine ⟨off + (partMarker bnd).length + 2 + (headerFor p).length + 4, ?_, ?_⟩
        · simp only [insPart, hnm]
        · rw [hfindM]
          congr 1
          omega
      · rename_i fieldName hnm
        refine ⟨off + (encodePart bnd p).length, ?_, hnext⟩
        split
        · rename_i heq3
          rw [hfindM] at heq3
          exact Option.noConfusion heq3
        · rename_i nextB heq3
          rw [hfindM] at heq3
          injection heq3 with heq3
          subst heq3
          rw [hfile]
          have harg : off + (partMarker bnd).length + 2 + (headerFor p).length + 4
              + (p.content.length + 2) - 2
              = off + (partMarker bnd).length + 2 + (headerFor p).length + 4
                + p.content.length := by omega
          rw [harg, hCslice]
          have hpos' : off + (partMarker bnd).length + 2 + (headerFor p).length + 4
              + (p.content.length + 2) = off + (encodePart bnd p).length := by omega
          rw [hpos']
          simp only [insPart, hnm, valueOf]

/-! ### Parsing a complete well-formed body -/

theorem marker_prefix_encodePart (bnd : Bytes) (q : PartSpec) :
    (partMarker bnd).isPrefixOf (encodePart bnd q) = true := by
  rw [show encodePart bnd q = partMarker bnd
      ++ (crlf ++ (headerFor q ++ (crlfcrlf ++ (q.content ++ crlf)))) by
    simp [encodePart, List.append_assoc]]
  exact List.isPrefixOf_iff_prefix.mpr (List.prefix_append _ _)

theorem marker_prefix_endMarker (bnd : Bytes) :
    (partMarker bnd).isPrefixOf (endMarker bnd ++ crlf) = true := by
  rw [show endMarker bnd ++ crlf = partMarker bnd ++ ([45, 45] ++ crlf) by
    simp [endMarker, partMarker, List.append_assoc]]
  exact List.isPrefixOf_iff_prefix.mpr (List.prefix_append _ _)

theorem flatten_parts_marker (bnd : Bytes) (rest : List PartSpec) (Z : Bytes)
    (hZ : (partMarker bnd).isPrefixOf Z = true) :
    (partMarker bnd).isPrefixOf ((rest.map (encodePart bnd)).flatten ++ Z) = true := by
  cases rest with
  | nil => simpa using hZ
  | cons q qs =>
    rw [show ((q :: qs).map (encodePart bnd)).flatten ++ Z
        = partMarker bnd ++ (crlf ++ (headerFor q ++ (crlfcrlf ++ (q.content
            ++ (crlf ++ ((qs.map (encodePart bnd)).flatten ++ Z)))))) by
      simp [encodePart, List.append_assoc]]
    exact List.isPrefixOf_iff_prefix.mpr (List.prefix_append _ _)

/-- Parsing a complete well-formed body region: each remaining part is
consumed in order, and the terminal marker stops the loop. -/
theorem parseLoop_build (bnd : Bytes) (ps : List PartSpec) (buf : Bytes) :
    ∀ (pre : Bytes) (pos : Nat) (acc : Parts),
      (∀ p ∈ ps, ValidPart bnd p) →
      buf = pre ++ ((ps.map (encodePart bnd)).flatten ++ (endMarker bnd ++ crlf)) →
      findFrom buf (partMarker bnd) pos = some pre.length →
      parseLoop buf (partMarker bnd) (endMarker bnd) pos acc = mkParts acc ps := by
  induction ps with
  | nil =>
    intro pre pos acc _ hbuf hpos
    have hMne := partMarker_ne bnd
    have hple := findFrom_le hpos
    have hwin := findFrom_window hMne hpos
    have hMpos := List.length_pos.mpr hMne
    have hposlt : pos < buf.length := by omega
    have hdropE : buf.drop pre.length = endMarker bnd ++ crlf := by
      rw [hbuf]
      simp only [List.map_nil, List.flatten_nil, List.nil_append]
      exact List.drop_left _ _
    rw [parseLoop.eq_def, if_pos hposlt]
    split
    · rename_i heq; rw [hpos] at heq; exact Option.noConfusion heq
    · rename_i bIdx heq
      rw [hpos] at heq; injection heq with heq; subst heq
      have hpre : (endMarker bnd).isPrefixOf (buf.drop pre.length) = true := by
        rw [hdropE]
        exact List.isPrefixOf_iff_prefix.mpr (List.prefix_append _ _)
      rw [if_pos hpre]
      rfl
  | cons p rest ih =>
    intro pre pos acc hv hbuf hpos
    have hvp : ValidPart bnd p := hv p (List.mem_cons_self _ _)
    have hdropP : buf.drop pre.length
        = encodePart bnd p
          ++ ((rest.map (encodePart bnd)).flatten ++ (endMarker bnd ++ crlf)) := by
      rw [hbuf]
      rw [show ((p :: rest).map (encodePart bnd)).flatten ++ (endMarker bnd ++ crlf)
          = encodePart bnd p
            ++ ((rest.map (encodePart bnd)).flatten ++ (endMarker bnd ++ crlf)) by
        simp [List.append_assoc]]
      exact List.drop_left _ _
    have htail : (partMarker bnd).isPrefixOf
        ((rest.map (encodePart bnd)).flatten ++ (endMarker bnd ++ crlf)) = true :=
      flatten_parts_marker bnd rest _ (marker_prefix_endMarker bnd)
    obtain ⟨pos', hstep, hnext⟩ :=
      parseLoop_step buf bnd p hvp pre.length pos _ hdropP htail hpos acc
    rw [hstep]
    refine ih (pre ++ encodePart bnd p) pos' (insPart acc p)
      (fun r hr => hv r (List.mem_cons_of_mem _ hr)) ?_ ?_
    · rw [hbuf]; simp [List.append_assoc]
    · rw [List.length_append]; exact hnext

/-! ### Truncated bodies -/

theorem findFrom_crlfcrlf_none {H : Bytes} (hH : ∀ c ∈ H, c ≠ 13) :
    findFrom H crlfcrlf 0 = none := by
  rw [findFrom_eq_none_iff crlfcrlf_ne]
  intro j hj
  cases hp : crlfcrlf.isPrefixOf (H.drop j) with
  | false => rfl
  | true =>
    exfalso
    have hp2 : ((13 : Nat) :: [10, 13, 10]).isPrefixOf (H.drop j) = true := hp
    have hhead := isPrefixOf_head hp2
    rw [List.getElem?_drop, Nat.add_zero] at hhead
    exact hH 13 (List.getElem?_mem hhead) rfl

/-- A final part whose content is never delimited by another marker is
dropped: the loop returns the accumulator unchanged. -/
theorem parseLoop_last_truncated (buf bnd : Bytes) (p : PartSpec) (hp : ValidPart bnd p)
    (off pos : Nat)
    (hdrop : buf.drop off = encodePart bnd p)
    (hpos : findFrom buf (partMarker bnd) pos = some off) (acc : Parts) :
    parseLoop buf (partMarker bnd) (endMarker bnd) pos acc = acc := by
  obtain ⟨hH13, hname, hfile, hcok⟩ := hp
  have hMne := partMarker_ne bnd
  have hMpos := List.length_pos.mpr hMne
  have hwin := findFrom_window hMne hpos
  have hple := findFrom_le hpos
  have hoffle : off ≤ buf.length := by omega
  have hblen : buf.length = off + (encodePart bnd p).length :=
    length_eq_of_drop_eq hoffle hdrop
  have helen := encodePart_length bnd p
  have hposlt : pos < buf.length := by omega
  have hS : buf.drop off = partMarker bnd
      ++ (13 :: 10 :: (headerFor p ++ (crlfcrlf ++ (p.content ++ crlf)))) := by
    rw [hdrop]; simp [encodePart, crlf, List.append_assoc]
  have hEM : endMarker bnd = partMarker bnd ++ [45, 45] := by
    simp [endMarker, partMarker, List.append_assoc]
  have hendF : (endMarker bnd).isPrefixOf (buf.drop off) = false := by
    rw [hS, hEM, isPrefixOf_append_cancel]
    simp [List.isPrefixOf]
  have hskip := skipCrlf_after hS
  have hX : buf.drop (off + (partMarker bnd).length + 2)
      = headerFor p ++ (crlfcrlf ++ (p.content ++ crlf)) := by
    have hA : buf.drop off = (partMarker bnd ++ crlf)
        ++ (headerFor p ++ (crlfcrlf ++ (p.content ++ crlf))) := by
      rw [hS]; simp [crlf, List.append_assoc]
    have h1 := drop_of_drop_append hA
    rwa [List.length_append, show crlf.length = 2 from rfl, ← Nat.add_assoc] at h1
  have hfindH : findFrom buf crlfcrlf (off + (partMarker bnd).length + 2)
      = some (off + (partMarker bnd).length + 2 + (headerFor p).length) := by
    have h0 : off + (partMarker bnd).length + 2 ≤ buf.length := by omega
    have h1 := findFrom_shift_drop crlfcrlf_ne h0 0
    rw [Nat.add_zero] at h1
    rw [h1, hX, findFrom_crlfcrlf_inner hH13]
    rfl
  have hslice := sliceBytes_exact hX
  have hC : buf.drop (off + (partMarker bnd).length + 2 + (headerFor p).length + 4)
      = p.content ++ crlf := by
    have hA : buf.drop (off + (partMarker bnd).length + 2)
        = (headerFor p ++ crlfcrlf) ++ (p.content ++ crlf) := by
      rw [hX]; simp [List.append_assoc]
    have h1 := drop_of_drop_append hA
    rwa [List.length_append, show crlfcrlf.length = 4 from rfl, ← Nat.add_assoc] at h1
  have hok : ∀ j : Nat, j < p.content.length + 2 →
      (partMarker bnd).isPrefixOf
        ((p.content ++ crlf ++ partMarker bnd).drop j) = false := hcok
  have hfindM : findFrom buf (partMarker bnd)
      (off + (partMarker bnd).length + 2 + (headerFor p).length + 4) = none := by
    have h0 : off + (partMarker bnd).length + 2 + (headerFor p).length + 4
        ≤ buf.length := by omega
    have h1 := findFrom_shift_drop hMne h0 0
    rw [Nat.add_zero] at h1
    rw [h1, hC, findFrom_marker_none_inner hMne hok]
    rfl
  rw [parseLoop.eq_def, if_pos hposlt]
  split
  · rename_i heq; rw [hpos] at heq
  · rename_i bIdx heq
    rw [hpos] at heq; injection heq with heq; subst heq
    rw [if_neg (by rw [hendF]; exact Bool.false_ne_true)]
    rw [hskip]
    split
    · rfl
    · rename_i headersEnd heq2
      rw [hfindH] at heq2; injection heq2 with heq2; subst heq2
      rw [hslice, hname]
      split
      · rename_i hnm
        rw [parseLoop.eq_def]
        by_cases h3 : off + (partMarker bnd).length + 2 + (headerFor p).length + 4
            < buf.length
        · rw [if_pos h3]
          split
          · rfl
          · rename_i bIdx2 heq3
            rw [hfindM] at heq3
            exact Option.noConfusion heq3
        · rw [if_neg h3]
      · rename_i fieldName hnm
        split
        · rfl
        · rename_i nextB heq3
          rw [hfindM] at heq3
          exact Option.noConfusion heq3

/-- A final part whose header block is never terminated by a blank line is
dropped: the loop returns the accumulator unchanged. -/
theorem parseLoop_header_truncated (buf bnd : Bytes) (q : PartSpec) (hq : ValidPart bnd q)
    (off pos : Nat)
    (hdrop : buf.drop off = partMarker bnd ++ crlf ++ headerFor q)
    (hpos : findFrom buf (partMarker bnd) pos = some off) (acc : Parts) :
    parseLoop buf (partMarker bnd) (endMarker bnd) pos acc = acc := by
  obtain ⟨hH13, _, _, _⟩ := hq
  have hMne := partMarker_ne bnd
  have hMpos := List.length_pos.mpr hMne
  have hwin := findFrom_window hMne hpos
  have hple := findFrom_le hpos
  have hoffle : off ≤ buf.length := by omega
  have hblen := length_eq_of_drop_eq hoffle hdrop
  have hlen3 : (partMarker bnd ++ crlf ++ headerFor q).length
      = (partMarker bnd).length + 2 + (headerFor q).length := by
    simp only [List.length_append, crlf, List.length_cons, List.length_nil]
  have hposlt : pos < buf.length := by omega
  have hS : buf.drop off = partMarker bnd ++ (13 :: 10 :: headerFor q) := by
    rw [hdrop]; simp [crlf, List.append_assoc]
  have hEM : endMarker bnd = partMarker bnd ++ [45, 45] := by
    simp [endMarker, partMarker, List.append_assoc]
  have hendF : (endMarker bnd).isPrefixOf (buf.drop off) = false := by
    rw [hS, hEM, isPrefixOf_append_cancel]
    simp [List.isPrefixOf]
  have hskip := skipCrlf_after hS
  have hX : buf.drop (off + (partMarker bnd).length + 2) = headerFor q := by
    have hA : buf.drop off = (partMarker bnd ++ crlf) ++ headerFor q := by
      rw [hS]; simp [crlf, List.append_assoc]
    have h1 := drop_of_drop_append hA
    rwa [List.length_append, show crlf.length = 2 from rfl, ← Nat.add_assoc] at h1
  have hfindH : findFrom buf crlfcrlf (off + (partMarker bnd).length + 2) = none := by
    have h0 : off + (partMarker bnd).length + 2 ≤ buf.length := by omega
    have h1 := findFrom_shift_drop crlfcrlf_ne h0 0
    rw [Nat.add_zero] at h1
    rw [h1, hX, findFrom_crlfcrlf_none hH13]
    rfl
  rw [parseLoop.eq_def, if_pos hposlt]
  split
  · rename_i heq; rw [hpos] at heq
  · rename_i bIdx heq
    rw [hpos] at heq; injection heq with heq; subst heq
    rw [if_neg (by rw [hendF]; exact Bool.false_ne_true)]
    rw [hskip]
    split
    · rfl
    · rename_i headersEnd heq2
      rw [hfindH] at heq2
      exact Option.noConfusion heq2

/-- Parsing a body whose terminal boundary is missing yields exactly the
parts before the truncated final part. -/
theorem parseLoop_noTerminal (bnd : Bytes) (ps : List PartSpec) (q : PartSpec) (buf : Bytes) :
    ∀ (pre : Bytes) (pos : Nat) (acc : Parts),
      (∀ p ∈ ps, ValidPart bnd p) → ValidPart bnd q →
      buf = pre ++ ((ps.map (encodePart bnd)).flatten ++ encodePart bnd q) →
      findFrom buf (partMarker bnd) pos = some pre.length →
      parseLoop buf (partMarker bnd) (endMarker bnd) pos acc = mkParts acc ps := by
  induction ps with
  | nil =>
    intro pre pos acc _ hq hbuf hpos
    have hdropQ : buf.drop pre.length = encodePart bnd q := by
      rw [hbuf]
      simp only [List.map_nil, List.flatten_nil, List.nil_append]
      exact List.drop_left _ _
    exact parseLoop_last_truncated buf bnd q hq pre.length pos hdropQ hpos acc
  | cons p rest ih =>
    intro pre pos acc hv hq hbuf hpos
    have hvp : ValidPart bnd p := hv p (List.mem_cons_self _ _)
    have hdropP : buf.drop pre.length
        = encodePart bnd p
          ++ ((rest.map (encodePart bnd)).flatten ++ encodePart bnd q) := by
      rw [hbuf]
      rw [show ((p :: rest).map (encodePart bnd)).flatten ++ encodePart bnd q
          = encodePart bnd p
            ++ ((rest.map (encodePart bnd)).flatten ++ encodePart bnd q) by
        simp [List.append_assoc]]
      exact List.drop_left _ _
    have htail : (partMarker bnd).isPrefixOf
        ((rest.map (encodePart bnd)).flatten ++ encodePart bnd q) = true :=
      flatten_parts_marker bnd rest _ (marker_prefix_encodePart bnd q)
    obtain ⟨pos', hstep, hnext⟩ :=
      parseLoop_step buf bnd p hvp pre.length pos _ hdropP htail hpos acc
    rw [hstep]
    refine ih (pre ++ encodePart bnd p) pos' (insPart acc p)
      (fun r hr => hv r (List.mem_cons_of_mem _ hr)) hq ?_ ?_
    · rw [hbuf]; simp [List.append_assoc]
    · rw [List.length_append]; exact hnext

/-- Parsing a body whose final header block is never terminated yields
exactly the complete parts before it. -/
theorem parseLoop_noHeaderEnd (bnd : Bytes) (ps : List PartSpec) (q : PartSpec) (buf : Bytes) :
    ∀ (pre : Bytes) (pos : Nat) (acc : Parts),
      (∀ p ∈ ps, ValidPart bnd p) → ValidPart bnd q →
      buf = pre ++ ((ps.map (encodePart bnd)).flatten
        ++ (partMarker bnd ++ (crlf ++ headerFor q))) →
      findFrom buf (partMarker bnd) pos = some pre.length →
      parseLoop buf (partMarker bnd) (endMarker bnd) pos acc = mkParts acc ps := by
  induction ps with
  | nil =>
    intro pre pos acc _ hq hbuf hpos
    have hdropQ : buf.drop pre.length = partMarker bnd ++ crlf ++ headerFor q := by
      rw [hbuf]
      simp only [List.map_nil, List.flatten_nil, List.nil_append]
      rw [show partMarker bnd ++ (crlf ++ headerFor q)
          = partMarker bnd ++ crlf ++ headerFor q by simp [List.append_assoc]]
      rw [show partMarker bnd ++ crlf ++ headerFor q
          = (partMarker bnd ++ (crlf ++ headerFor q)) by simp [List.append_assoc]]
      exact List.drop_left _ _
    have hdropQ2 : buf.drop pre.length = partMarker bnd ++ crlf ++ headerFor q := by
      rw [hdropQ]
    exact parseLoop_header_truncated buf bnd q hq pre.length pos hdropQ2 hpos acc
  | cons p rest ih =>
    intro pre pos acc hv hq hbuf hpos
    have hvp : ValidPart bnd p := hv p (List.mem_cons_self _ _)
    have hdropP : buf.drop pre.length
        = encodePart bnd p ++ ((rest.map (encodePart bnd)).flatten
            ++ (partMarker bnd ++ (crlf ++ headerFor q))) := by
      rw [hbuf]
      rw [show ((p :: rest).map (encodePart bnd)).flatten
            ++ (partMarker bnd ++ (crlf ++ headerFor q))
          = encodePart bnd p ++ ((rest.map (encodePart bnd)).flatten
              ++ (partMarker bnd ++ (crlf ++ headerFor q))) by
        simp [List.append_assoc]]
      exact List.drop_left _ _
    have htail : (partMarker bnd).isPrefixOf
        ((rest.map (encodePart bnd)).flatten
          ++ (partMarker bnd ++ (crlf ++ headerFor q))) = true :=
      flatten_parts_marker bnd rest _
        (List.isPrefixOf_iff_prefix.mpr (List.prefix_append _ _))
    obtain ⟨pos', hstep, hnext⟩ :=
      parseLoop_step buf bnd p hvp pre.length pos _ hdropP htail hpos acc
    rw [hstep]
    refine ih (pre ++ encodePart bnd p) pos' (insPart acc p)
      (fun r hr => hv r (List.mem_cons_of_mem _ hr)) hq ?_ ?_
    · rw [hbuf]; simp [List.append_assoc]
    · rw [List.length_append]; exact hnext

/-! ### Iteration bound: the fuel-indexed loop -/

theorem parseLoop_eq_fuel (buf marker endM : Bytes) :
    ∀ (fuel pos : Nat) (acc : Parts), buf.length - pos ≤ fuel →
      parseLoop buf marker endM pos acc = parseLoopFuel buf marker endM fuel pos acc := by
  intro fuel
  induction fuel with
  | zero =>
    intro pos acc h
    rw [parseLoop.eq_def, if_neg (by omega)]
    rfl
  | succ m ih =>
    intro pos acc h
    rw [parseLoop.eq_def]
    simp only [parseLoopFuel]
    by_cases hpos : pos < buf.length
    · rw [if_pos hpos, if_pos hpos]
      split
      · rename_i heq
        rw [heq]
      · rename_i bIdx heq
        rw [heq]
        have hb1 := findFrom_le heq
        have hb2 := skipCrlf_ge buf (bIdx + marker.length)
        show _ = (if endM.isPrefixOf (buf.drop bIdx) = true then acc else _)
        by_cases hend : endM.isPrefixOf (buf.drop bIdx) = true
        · rw [if_pos hend, if_pos hend]
        · rw [if_neg hend, if_neg hend]
          split
          · rename_i heq2
            rw [heq2]
          · rename_i headersEnd heq2
            rw [heq2]
            have hb3 := findFrom_le heq2
            show _ = (match extractName (sliceBytes buf
                (skipCrlf buf (bIdx + marker.length)) headersEnd) with
              | none => parseLoopFuel buf marker endM m (headersEnd + 4) acc
              | some fieldName => _)
            cases hx : extractName (sliceBytes buf
                (skipCrlf buf (bIdx + marker.length)) headersEnd) with
            | none => exact ih (headersEnd + 4) acc (by omega)
            | some fieldName =>
              show (match hn : findFrom buf marker (headersEnd + 4) with
                | none => acc
                | some nextB => parseLoop buf marker endM nextB _) = _
              split
              · rename_i heq3
                rw [heq3]
              · rename_i nextB heq3
                rw [heq3]
                have hb4 := findFrom_le heq3
                exact ih nextB _ (by omega)
    · rw [if_neg hpos, if_neg hpos]

/-! ### The parts map -/

theorem find?_map_setPart (ps : Parts) (k : Bytes) (v : PartValue) :
    ((ps.map (fun q => if q.1 == k then (k, v) else q)).find? (fun q => q.1 == k))
      = if ps.any (fun q => q.1 == k) then some (k, v) else none := by
  induction ps with
  | nil => simp
  | cons q qs ih =>
    simp only [List.map_cons, List.any_cons]
    by_cases hq : (q.1 == k) = true
    · rw [if_pos hq, @List.find?_cons_of_pos _ (fun r => r.1 == k) (k, v) _ (by simp)]
      simp [hq]
    · have hqf : (q.1 == k) = false := by
        cases hqb : (q.1 == k) with
        | true => exact absurd hqb hq
        | false => rfl
      rw [if_neg hq, @List.find?_cons_of_neg _ (fun r => r.1 == k) q _ (by simp [hqf]), ih]
      simp only [hqf, Bool.false_or]

theorem find?_map_setPart_ne (ps : Parts) (k k' : Bytes) (v : PartValue) (hne : k' ≠ k) :
    (ps.map (fun q => if q.1 == k then (k, v) else q)).find? (fun q => q.1 == k')
      = ps.find? (fun q => q.1 == k') := by
  induction ps with
  | nil => rfl
  | cons q qs ih =>
    by_cases hq : (q.1 == k) = true
    · have hq' : q.1 = k := by simpa using hq
      have hk'f : ((k, v).1 == k') = false := by
        simp only [beq_eq_false_iff_ne]
        intro hx
        exact hne hx.symm
      have hqf : (q.1 == k') = false := by
        simp only [beq_eq_false_iff_ne, hq']
        intro hx
        exact hne hx.symm
      simp only [List.map_cons, if_pos hq]
      rw [@List.find?_cons_of_neg _ (fun r => r.1 == k') (k, v) _ (by simp [hk'f]),
        @List.find?_cons_of_neg _ (fun r => r.1 == k') q _ (by simp [hqf])]
      exact ih
    · simp only [List.map_cons, if_neg hq]
      by_cases hqk : (q.1 == k') = true
      · rw [@List.find?_cons_of_pos _ (fun r => r.1 == k') q _ hqk,
          @List.find?_cons_of_pos _ (fun r => r.1 == k') q _ hqk]
      · rw [@List.find?_cons_of_neg _ (fun r => r.1 == k') q _ hqk,
          @List.find?_cons_of_neg _ (fun r => r.1 == k') q _ hqk]
        exact ih

theorem getPart_setPart_self (ps : Parts) (k : Bytes) (v : PartValue) :
    getPart (setPart ps k v) k = some v := by
  unfold setPart getPart
  split
  · rw [find?_map_setPart]
    rename_i hany
    rw [if_pos hany]
    rfl
  · rename_i hany
    rw [List.find?_append]
    have h1 : ps.find? (fun q => q.1 == k) = none := by
      rw [List.find?_eq_none]
      intro x hx hpx
      exact hany (List.any_eq_true.mpr ⟨x, hx, hpx⟩)
    rw [h1, @List.find?_cons_of_pos _ (fun r => r.1 == k) (k, v) _ (by simp)]
    rfl

theorem getPart_setPart_ne (ps : Parts) (k k' : Bytes) (v : PartValue) (hne : k' ≠ k) :
    getPart (setPart ps k v) k' = getPart ps k' := by
  unfold setPart getPart
  split
  · rw [find?_map_setPart_ne ps k k' v hne]
  · rw [List.find?_append]
    have h2 : List.find? (fun q => q.1 == k') [(k, v)] = none := by
      rw [List.find?_eq_none]
      intro x hx hpx
      have hxe : x = (k, v) := by simpa using hx
      subst hxe
      have hpx2 : k = k' := by simpa using hpx
      exact hne hpx2.symm
    rw [h2]
    simp

theorem getPart_mkParts (ps : List PartSpec) :
    ∀ (acc : Parts) (k : Bytes),
      getPart (mkParts acc ps) k
        = match ps.reverse.find? (fun p => p.name == some k) with
          | some p => some (valueOf p)
          | none => getPart acc k := by
  induction ps with
  | nil => intro acc k; rfl
  | cons p rest ih =>
    intro acc k
    have h1 : mkParts acc (p :: rest) = mkParts (insPart acc p) rest := rfl
    rw [h1, ih]
    rw [show (p :: rest).reverse = rest.reverse ++ [p] by simp]
    rw [List.find?_append]
    cases hf : rest.reverse.find? (fun p => p.name == some k) with
    | some q => simp
    | none =>
      simp only [Option.none_or]
      by_cases hp : (p.name == some k) = true
      · have hp' : p.name = some k := by simpa using hp
        have hfind1 : List.find? (fun r => r.name == some k) [p] = some p := by
          simp only [List.find?_cons, hp]
        rw [hfind1]
        simp only [insPart, hp']
        exact getPart_setPart_self acc k (valueOf p)
      · have hpf : (p.name == some k) = false := by
          cases hx : (p.name == some k) with
          | true => exact absurd hx hp
          | false => rfl
        have hfind1 : List.find? (fun r => r.name == some k) [p] = none := by
          simp only [List.find?_cons, hpf]
          rfl
        rw [hfind1]
        cases hnm : p.name with
        | none =>
          simp only [insPart, hnm]
        | some n =>
          have hne : k ≠ n := by
            intro h
            subst h
            rw [hnm] at hpf
            simp at hpf
          simp only [insPart, hnm]
          rw [getPart_setPart_ne acc n k (valueOf p) hne]

theorem mkParts_length (ps : List PartSpec) :
    ∀ acc : Parts,
      (∀ p ∈ ps, p.name ≠ none) →
      (ps.map PartSpec.name).Nodup →
      (∀ p ∈ ps, ∀ q ∈ acc, p.name ≠ some q.1) →
      (mkParts acc ps).length = acc.length + ps.length := by
  induction ps with
  | nil => intro acc _ _ _; rfl
  | cons p rest ih =>
    intro acc hnamed hnodup hfresh
    have hnodup2 : p.name ∉ rest.map PartSpec.name ∧ (rest.map PartSpec.name).Nodup := by
      rw [List.map_cons, List.nodup_cons] at hnodup
      exact hnodup
    cases hnm : p.name with
    | none => exact absurd hnm (hnamed p (List.mem_cons_self _ _))
    | some n =>
      have h1 : mkParts acc (p :: rest) = mkParts (setPart acc n (valueOf p)) rest := by
        show mkParts (insPart acc p) rest = _
        rw [insPart, hnm]
      rw [h1]
      have hanyF : acc.any (fun q => q.1 == n) = false := by
        rw [Bool.eq_false_iff]
        intro hany
        obtain ⟨q, hq, hqn⟩ := List.any_eq_true.mp hany
        have hqn2 : q.1 = n := by simpa using hqn
        exact hfresh p (List.mem_cons_self _ _) q hq (by rw [hnm, hqn2])
      have hset : setPart acc n (valueOf p) = acc ++ [(n, valueOf p)] := by
        unfold setPart
        rw [if_neg (by simp [hanyF])]
      have hlen : (setPart acc n (valueOf p)).length = acc.length + 1 := by
        rw [hset, List.length_append]
        rfl
      have hfresh2 : ∀ r ∈ rest, ∀ q ∈ setPart acc n (valueOf p), r.name ≠ some q.1 := by
        intro r hr q hq
        rw [hset] at hq
        rcases List.mem_append.mp hq with hq2 | hq2
        · exact hfresh r (List.mem_cons_of_mem _ hr) q hq2
        · have hqe : q = (n, valueOf p) := by simpa using hq2
          subst hqe
          intro hcon
          exact hnodup2.1 (hnm ▸ List.mem_map.mpr ⟨r, hr, hcon⟩)
      rw [ih (setPart acc n (valueOf p))
        (fun r hr => hnamed r (List.mem_cons_of_mem _ hr)) hnodup2.2 hfresh2, hlen]
      simp only [List.length_cons]
      omega

/-! ### Claim theorems for the parser -/

/-- Parsing the built body with the binary transport path is the pure
scan-loop run, and on a well-formed body it produces exactly the expected
map. -/
theorem parse_buildBody (bnd : Bytes) (ps : List PartSpec)
    (hv : ∀ p ∈ ps, ValidPart bnd p) :
    parseMultipartFormData (buildBody bnd ps) bnd false = mkParts [] ps := by
  show parseLoop (buildBody bnd ps) (partMarker bnd) (endMarker bnd) 0 [] = mkParts [] ps
  have hshape : buildBody bnd ps
      = (ps.map (encodePart bnd)).flatten ++ (endMarker bnd ++ crlf) := by
    simp [buildBody, List.append_assoc]
  refine parseLoop_build bnd ps (buildBody bnd ps) [] 0 [] hv ?_ ?_
  · rw [List.nil_append]
    exact hshape
  · refine findFrom_self (partMarker_ne bnd) ?_
    rw [List.drop_zero, hshape]
    exact flatten_parts_marker bnd ps _ (marker_prefix_endMarker bnd)

/-- C1: for every well-formed multipart body containing parts with
pairwise-distinct field names, `parseMultipartFormData` returns a mapping
with exactly N entries; each file part (header block containing
`filename=`) maps its field name to the raw content bytes
(`PartValue.file`) and each non-file part maps its name to the content as
text (`PartValue.text`); and in general every lookup returns the value of
the last part carrying that field name. -/
theorem parse_wellformed_mapping (bnd : Bytes) (ps : List PartSpec)
    (hwf : WFBody bnd ps) :
    (∀ k : Bytes,
      getPart (parseMultipartFormData (buildBody bnd ps) bnd false) k
        = match ps.reverse.find? (fun p => p.name == some k) with
          | some p => some (valueOf p)
          | none => none)
    ∧ ((∀ p ∈ ps, p.name ≠ none) → (ps.map PartSpec.name).Nodup →
        (parseMultipartFormData (buildBody bnd ps) bnd false).length = ps.length) := by
  rw [parse_buildBody bnd ps hwf.2]
  constructor
  · intro k
    rw [getPart_mkParts]
    cases ps.reverse.find? (fun p => p.name == some k) with
    | none => rfl
    | some q => rfl
  · intro hnamed hnodup
    have h := mkParts_length ps [] hnamed hnodup
      (by intro p hp q hq; exact absurd hq (List.not_mem_nil q))
    simpa using h

/-- Witness for C1: a concrete well-formed two-part body (one text field,
one file field, distinct names) parses to a map with exactly two entries. -/
theorem parse_wellformed_mapping_witness :
    WFBody bndW [partA, partB]
    ∧ (parseMultipartFormData (buildBody bndW [partA, partB]) bndW false).length = 2 :=
  ⟨by decide, (parse_wellformed_mapping bndW [partA, partB] (by decide)).2
    (by decide) (by decide)⟩

/-- C2: round-trip — the content stored for each part is exactly the byte
range from the byte after the blank-line header terminator up to two bytes
before the next part marker, so building a body with boundary `X` around a
known byte sequence in a file field named `image` (plus a `maxWidth`
field) and parsing it with boundary `X` reproduces the byte sequence
byte-for-byte. -/
theorem parse_roundtrip (bnd data : Bytes)
    (hwf : WFBody bnd [imagePartOf data, maxWidth100Part]) :
    getPart (parseMultipartFormData
        (buildBody bnd [imagePartOf data, maxWidth100Part]) bnd false) (ascii "image")
      = some (PartValue.file data)
    ∧ getPart (parseMultipartFormData
        (buildBody bnd [imagePartOf data, maxWidth100Part]) bnd false) (ascii "maxWidth")
      = some (PartValue.text (ascii "100")) := by
  rw [parse_buildBody bnd _ hwf.2]
  constructor
  · rfl
  · rfl

/-- Witness for C2 at a concrete boundary and payload. -/
theorem parse_roundtrip_witness :
    WFBody bndW [imagePartOf [0, 1, 255, 2], maxWidth100Part]
    ∧ (getPart (parseMultipartFormData
          (buildBody bndW [imagePartOf [0, 1, 255, 2], maxWidth100Part]) bndW false)
          (ascii "image")
        = some (PartValue.file [0, 1, 255, 2])
      ∧ getPart (parseMultipartFormData
          (buildBody bndW [imagePartOf [0, 1, 255, 2], maxWidth100Part]) bndW false)
          (ascii "maxWidth")
        = some (PartValue.text (ascii "100"))) :=
  ⟨by decide, parse_roundtrip bndW [0, 1, 255, 2] (by decide)⟩

/-- C3: the parser is a total function, and a truncated body is absorbed
silently: a body missing the terminal boundary (so the last part's content
is never delimited) returns the map of the complete parts before it, and
likewise a body whose final header block is missing its blank-line
terminator. -/
theorem parse_truncated_partial (bnd : Bytes) (ps : List PartSpec) (q : PartSpec)
    (hwf : WFBody bnd (ps ++ [q])) :
    parseMultipartFormData (bodyNoTerminal bnd (ps ++ [q])) bnd false = mkParts [] ps
    ∧ parseMultipartFormData (bodyNoHeaderEnd bnd ps q) bnd false = mkParts [] ps := by
  have hvps : ∀ p ∈ ps, ValidPart bnd p := fun p hp => hwf.2 p (List.mem_append_left _ hp)
  have hvq : ValidPart bnd q :=
    hwf.2 q (List.mem_append_right _ (List.mem_singleton.mpr rfl))
  constructor
  · show parseLoop (bodyNoTerminal bnd (ps ++ [q])) _ _ 0 [] = _
    have hshape : bodyNoTerminal bnd (ps ++ [q])
        = (ps.map (encodePart bnd)).flatten ++ encodePart bnd q := by
      simp [bodyNoTerminal, List.append_assoc]
    refine parseLoop_noTerminal bnd ps q _ [] 0 [] hvps hvq ?_ ?_
    · rw [List.nil_append]
      exact hshape
    · refine findFrom_self (partMarker_ne bnd) ?_
      rw [List.drop_zero, hshape]
      exact flatten_parts_marker bnd ps _ (marker_prefix_encodePart bnd q)
  · show parseLoop (bodyNoHeaderEnd bnd ps q) _ _ 0 [] = _
    have hshape : bodyNoHeaderEnd bnd ps q
        = (ps.map (encodePart bnd)).flatten
            ++ (partMarker bnd ++ (crlf ++ headerFor q)) := by
      simp [bodyNoHeaderEnd, List.append_assoc]
    refine parseLoop_noHeaderEnd bnd ps q _ [] 0 [] hvps hvq ?_ ?_
    · rw [List.nil_append]
      exact hshape
    · refine findFrom_self (partMarker_ne bnd) ?_
      rw [List.drop_zero, hshape]
      exact flatten_parts_marker bnd ps _
        (List.isPrefixOf_iff_prefix.mpr (List.prefix_append _ _))

/-- Witness for C3 at a concrete truncated body. -/
theorem parse_truncated_partial_witness :
    WFBody bndW ([partA] ++ [partB])
    ∧ (parseMultipartFormData (bodyNoTerminal bndW ([partA] ++ [partB])) bndW false
        = mkParts [] [partA]
      ∧ parseMultipartFormData (bodyNoHeaderEnd bndW [partA] partB) bndW false
        = mkParts [] [partA]) :=
  ⟨by decide, parse_truncated_partial bndW [partA] partB (by decide)⟩

/-- C8: a part whose header block contains no `name="..."` attribute is
skipped — the cursor advances past the header terminator, the part
contributes no entry to the returned mapping, and parsing continues with
the following parts. -/
theorem parse_skips_unnamed (bnd : Bytes) (p1 : PartSpec) (c : Bytes) (p3 : PartSpec)
    (hwf : WFBody bnd [p1, ⟨none, false, c⟩, p3]) :
    parseMultipartFormData (buildBody bnd [p1, ⟨none, false, c⟩, p3]) bnd false
      = mkParts [] [p1, p3] := by
  rw [parse_buildBody bnd _ hwf.2]
  rfl

/-- Witness for C8 at a concrete body whose middle part has no name. -/
theorem parse_skips_unnamed_witness :
    WFBody bndW [partA, ⟨none, false, ascii "zz"⟩, partB]
    ∧ parseMultipartFormData
        (buildBody bndW [partA, ⟨none, false, ascii "zz"⟩, partB]) bndW false
      = mkParts [] [partA, partB] :=
  ⟨by decide, parse_skips_unnamed bndW partA (ascii "zz") partB (by decide)⟩

/-- C10: termination — with a non-empty boundary the part marker has at
least three bytes, and the scan loop computes its result within an
explicit iteration budget: a fuel of `buf.length - pos` iterations (hence
at most buffer-length iterations in total, since each iteration strictly
advances the cursor) already yields the same result as the unbounded
loop; in particular the whole parse equals the fuel-bounded run with
budget `body.length`. -/
theorem parse_terminates (bnd : Bytes) (hbnd : bnd ≠ []) :
    3 ≤ (partMarker bnd).length
    ∧ (∀ (buf : Bytes) (fuel pos : Nat) (acc : Parts), buf.length - pos ≤ fuel →
        parseLoop buf (partMarker bnd) (endMarker bnd) pos acc
          = parseLoopFuel buf (partMarker bnd) (endMarker bnd) fuel pos acc)
    ∧ ∀ body : Bytes,
        parseMultipartFormData body bnd false
          = parseLoopFuel body (partMarker bnd) (endMarker bnd) body.length 0 [] := by
  refine ⟨?_, ?_, ?_⟩
  · have h1 : 0 < bnd.length := List.length_pos.mpr hbnd
    simp only [partMarker, List.length_append, List.length_cons, List.length_nil]
    omega
  · intro buf fuel pos acc h
    exact parseLoop_eq_fuel buf _ _ fuel pos acc h
  · intro body
    show parseLoop body _ _ 0 [] = _
    exact parseLoop_eq_fuel body _ _ body.length 0 [] (by omega)

/-- Witness for C10 at a concrete boundary. -/
theorem parse_terminates_witness :
    ascii "Xq" ≠ ([] : Bytes) ∧ 3 ≤ (partMarker (ascii "Xq")).length :=
  ⟨by decide, (parse_terminates (ascii "Xq") (by decide)).1⟩

/-! ### Claim theorems for the handler -/

/-- C4 (code defect): the validation
`if (maxWidth && (isNaN(maxWidth) || maxWidth <= 0))` can never fire for
the inputs the specification requires to be rejected: `parseInt("abc")` is
`NaN`, which is falsy, and `parseInt("0")` is `0`, which is falsy, so both
pass validation silently (only strictly negative values are rejected), and
a full JSON request with `maxWidth = "abc"` reaches the 200 success path
instead of the required 400. -/
theorem maxWidth_validation_gap :
    dimRejected (jsonDim (some (ascii "abc"))) = false
    ∧ dimRejected (jsonDim (some (ascii "0"))) = false
    ∧ dimRejected (jsonDim (some (ascii "-5"))) = true
    ∧ dimRejected (jsonDim (some (ascii "7"))) = false
    ∧ (handler envW eventMaxWidthAbc).statusCode = 200 := by
  decide

/-- C5 counterexample: the host `x.webp.example.com` contains `webp.` and
nothing avif-like, so the claim requires WebP, but the code selects AVIF:
its `includes` tests look for `://avif.` / `://webp.`, which a host header
value never contains. -/
theorem hostFormat_contains_webp_counterexample :
    containsSub (toLowerB webpSubHost) (ascii "webp.") = true
    ∧ (ascii "avif.").isPrefixOf (toLowerB webpSubHost) = false
    ∧ containsSub (toLowerB webpSubHost) (ascii "avif.") = false
    ∧ hostFormat none (some webpSubHost) = Format.avif := by
  decide

theorem overrideFormat_invalid (base : Format) (fmtParam : Option Bytes)
    (hnv : validFormatParam fmtParam = false) :
    overrideFormat base fmtParam = base := by
  cases fmtParam with
  | none => rfl
  | some s =>
    simp only [overrideFormat]
    by_cases he : s.isEmpty = true
    · rw [if_pos he]
    · rw [if_neg he]
      by_cases ha : toLowerB s = ascii "avif"
      · exfalso
        simp [validFormatParam, he, ha] at hnv
      · rw [if_neg ha]
        by_cases hw : toLowerB s = ascii "webp"
        · exfalso
          simp [validFormatParam, he, hw] at hnv
        · rw [if_neg hw]

/-- C5 (amended): when the request supplies no valid `format` parameter,
the selected format is determined by the forwarded-host/host header alone:
if the lowercased host string begins with `avif.` or contains `://avif.`,
the format is avif; otherwise if it begins with `webp.` or contains
`://webp.`, the format is webp; otherwise avif. -/
theorem hostFormat_rule (xfh hostHdr : Option Bytes) (fmtParam : Option Bytes)
    (hnv : validFormatParam fmtParam = false) :
    overrideFormat (hostFormat xfh hostHdr) fmtParam
      = (if (ascii "avif.").isPrefixOf (toLowerB (jsOrBytes xfh hostHdr))
            || containsSub (toLowerB (jsOrBytes xfh hostHdr)) (ascii "://avif.")
         then Format.avif
         else if (ascii "webp.").isPrefixOf (toLowerB (jsOrBytes xfh hostHdr))
            || containsSub (toLowerB (jsOrBytes xfh hostHdr)) (ascii "://webp.")
         then Format.webp
         else Format.avif) := by
  rw [overrideFormat_invalid _ _ hnv]
  rfl

/-- Witness for C5's amended rule at a concrete host and an ineffective
format parameter. -/
theorem hostFormat_rule_witness :
    validFormatParam (some (ascii "png")) = false
    ∧ overrideFormat (hostFormat none (some webpSubHost)) (some (ascii "png"))
        = Format.avif :=
  ⟨by decide, by
    rw [hostFormat_rule none (some webpSubHost) (some (ascii "png")) (by decide)]
    decide⟩

theorem stripDataUrl_strips {sub rest : Bytes} (hne : sub ≠ [])
    (hsub : ∀ c ∈ sub, 97 ≤ c ∧ c ≤ 122) :
    stripDataUrl (dataImagePrefix ++ (sub ++ (base64Comma ++ rest))) = rest := by
  unfold stripDataUrl
  rw [if_pos (List.isPrefixOf_iff_prefix.mpr (List.prefix_append _ _))]
  rw [List.drop_left]
  have hrun : (sub ++ (base64Comma ++ rest)).takeWhile
      (fun c => decide (97 ≤ c ∧ c ≤ 122)) = sub := by
    rw [List.takeWhile_append_of_pos (by intro a ha; simpa using hsub a ha)]
    have hsc : base64Comma ++ rest = 59 :: (ascii "base64," ++ rest) := rfl
    rw [hsc]
    rw [show (59 :: (ascii "base64," ++ rest)).takeWhile
        (fun c => decide (97 ≤ c ∧ c ≤ 122)) = [] from by simp [List.takeWhile]]
    exact List.append_nil sub
  simp only [hrun]
  have hc1 : sub.isEmpty = false := by
    cases sub with
    | nil => exact absurd rfl hne
    | cons a l => rfl
  have hc2 : base64Comma.isPrefixOf
      ((sub ++ (base64Comma ++ rest)).drop sub.length) = true := by
    rw [List.drop_left]
    exact List.isPrefixOf_iff_prefix.mpr (List.prefix_append _ _)
  rw [if_pos (by simp [hc1, hc2])]
  rw [List.drop_append]
  exact List.drop_left _ _

/-- C6: for a JSON body the image source is chosen by trying `imageUrl`,
then `imageBase64`, then `image`, in that order; a truthy `imageUrl` whose
fetch is not ok yields the 400 message; a chosen `imageBase64`/`image` is
stripped of an optional `data:image/<subtype>;base64,` prefix and
base64-decoded; and a body with none of the three yields the
`No image provided` client error. -/
theorem json_image_source_rule (fetch : Bytes → Option Bytes) (b : JsonBody) :
    (truthyStr b.imageUrl = true →
      resolveImageSource fetch b
        = match fetch (orEmptyB b.imageUrl) with
          | some bytes => Except.ok bytes
          | none => Except.error fetchFailedMsg)
    ∧ (truthyStr b.imageUrl = false → truthyStr b.imageBase64 = true →
      resolveImageSource fetch b
        = Except.ok (base64Decode (stripDataUrl (orEmptyB b.imageBase64))))
    ∧ (truthyStr b.imageUrl = false → truthyStr b.imageBase64 = false →
        truthyStr b.image = true →
      resolveImageSource fetch b
        = Except.ok (base64Decode (stripDataUrl (orEmptyB b.image))))
    ∧ (truthyStr b.imageUrl = false → truthyStr b.imageBase64 = false →
        truthyStr b.image = false →
      resolveImageSource fetch b = Except.error noImageMsg)
    ∧ (∀ sub rest : Bytes, sub ≠ [] → (∀ c ∈ sub, 97 ≤ c ∧ c ≤ 122) →
        stripDataUrl (dataImagePrefix ++ (sub ++ (base64Comma ++ rest))) = rest) := by
  refine ⟨?_, ?_, ?_, ?_, ?_⟩
  · intro h
    unfold resolveImageSource
    rw [if_pos h]
  · intro h1 h2
    unfold resolveImageSource
    rw [if_neg (by simp [h1]), if_pos h2]
  · intro h1 h2 h3
    unfold resolveImageSource
    rw [if_neg (by simp [h1]), if_neg (by simp [h2]), if_pos h3]
  · intro h1 h2 h3
    unfold resolveImageSource
    rw [if_neg (by simp [h1]), if_neg (by simp [h2]), if_neg (by simp [h3])]
  · intro sub rest hne hsub
    exact stripDataUrl_strips hne hsub

/-- Witness for C6: a body with only `imageBase64` resolves through the
second branch. -/
theorem json_image_source_rule_witness :
    truthyStr jsonBodyW.imageUrl = false ∧ truthyStr jsonBodyW.imageBase64 = true
    ∧ resolveImageSource fetchW jsonBodyW
        = Except.ok (base64Decode (stripDataUrl (orEmptyB jsonBodyW.imageBase64))) :=
  ⟨by decide, by decide,
    (json_image_source_rule fetchW jsonBodyW).2.1 (by decide) (by decide)⟩

/-- C7: resize planning — with both bounds given (positive integers), a
fit-inside resize to (maxWidth, maxHeight) is requested iff the natural
width exceeds maxWidth or the natural height exceeds maxHeight; with one
bound given, a resize on that axis is requested iff the corresponding
dimension exceeds it; and when the natural dimensions fit within all given
bounds no resize is requested, so the image is never upscaled. -/
theorem resize_plan (a b w h : Int) (ha : 0 < a) (hb : 0 < b) :
    (computeResize (JSNum.int a) (JSNum.int b) w h
      = if w > a ∨ h > b
        then { width := some a, height := some b, fit := some (ascii "inside") }
        else {})
    ∧ (computeResize (JSNum.int a) JSNum.null w h
      = if w > a then { width := some a } else {})
    ∧ (computeResize JSNum.null (JSNum.int b) w h
      = if h > b then { height := some b } else {})
    ∧ (w ≤ a → h ≤ b →
        resizeRequested (computeResize (JSNum.int a) (JSNum.int b) w h) = false
        ∧ resizeRequested (computeResize (JSNum.int a) JSNum.null w h) = false
        ∧ resizeRequested (computeResize JSNum.null (JSNum.int b) w h) = false) := by
  have hta : truthyNum (JSNum.int a) = true := by
    simp only [truthyNum, bne_iff_ne, ne_eq]
    omega
  have htb : truthyNum (JSNum.int b) = true := by
    simp only [truthyNum, bne_iff_ne, ne_eq]
    omega
  have htn : truthyNum JSNum.null = false := rfl
  have h1 : computeResize (JSNum.int a) (JSNum.int b) w h
      = if w > a ∨ h > b
        then { width := some a, height := some b, fit := some (ascii "inside") }
        else {} := by
    unfold computeResize
    rw [if_pos (by simp [hta]), if_neg (by simp [hta, htb]),
      if_neg (by simp [hta, htb]), if_pos (by simp [hta, htb])]
    by_cases hc : w > a ∨ h > b
    · rw [if_pos (by simp [jsGT]; exact hc), if_pos hc]
      rfl
    · rw [if_neg (by simp [jsGT]; omega), if_neg hc]
  have h2 : computeResize (JSNum.int a) JSNum.null w h
      = if w > a then { width := some a } else {} := by
    unfold computeResize
    rw [if_pos (by simp [hta]), if_pos (by simp [hta, htn])]
    by_cases hc : w > a
    · rw [if_pos (by simp [jsGT]; exact hc), if_pos hc]
      rfl
    · rw [if_neg (by simp [jsGT]; omega), if_neg hc]
  have h3 : computeResize JSNum.null (JSNum.int b) w h
      = if h > b then { height := some b } else {} := by
    unfold computeResize
    rw [if_pos (by simp [htb]), if_neg (by simp [htn]), if_pos (by simp [htb, htn])]
    by_cases hc : h > b
    · rw [if_pos (by simp [jsGT]; exact hc), if_pos hc]
      rfl
    · rw [if_neg (by simp [jsGT]; omega), if_neg hc]
  refine ⟨h1, h2, h3, fun hw hh => ⟨?_, ?_, ?_⟩⟩
  · rw [h1, if_neg (by omega)]
    rfl
  · rw [h2, if_neg (by omega)]
    rfl
  · rw [h3, if_neg (by omega)]
    rfl

/-- Witness for C7: (4000, 2000) with bounds 1920x1080 gets the fit-inside
plan, and (800, 600) with maxWidth 1920 is not resized. -/
theorem resize_plan_witness :
    (0 : Int) < 1920 ∧ (0 : Int) < 1080
    ∧ computeResize (JSNum.int 1920) (JSNum.int 1080) 4000 2000
        = { width := some 1920, height := some 1080, fit := some (ascii "inside") }
    ∧ computeResize (JSNum.int 1920) JSNum.null 800 600 = {} :=
  ⟨by decide, by decide,
    by rw [(resize_plan 1920 1080 4000 2000 (by decide) (by decide)).1]; decide,
    by rw [(resize_plan 1920 1080 800 600 (by decide) (by decide)).2.1]; decide⟩

/-! ### CORS headers on every response (C9) -/

theorem clientError_cors (msg : Bytes) : hasCors (clientError msg) := by
  refine ⟨?_, ?_, ?_⟩ <;> simp [clientError, corsHeaders]

theorem hasCors_corsOnly (s : Nat) (b : Bytes) (e : Bool) :
    hasCors { statusCode := s, headers := corsHeaders, body := b, isBase64Encoded := e } := by
  refine ⟨?_, ?_, ?_⟩ <;> simp [corsHeaders]

theorem hasCors_corsAppend (s : Nat) (t : List (Bytes × Bytes)) (b : Bytes) (e : Bool) :
    hasCors { statusCode := s, headers := corsHeaders ++ t, body := b, isBase64Encoded := e } := by
  refine ⟨?_, ?_, ?_⟩ <;> exact List.mem_append_left t (by simp [corsHeaders])

theorem processImage_cors (env : Env) (buf : Bytes) (mw mh : JSNum) (fmt : Format)
    (r : Response) (h : processImage env buf mw mh fmt = Except.ok r) : hasCors r := by
  unfold processImage at h
  split at h
  · exact Except.noConfusion h
  · split at h
    · exact Except.noConfusion h
    · split at h
      · exact Except.noConfusion h
      · injection h with h
        subst h
        exact hasCors_corsAppend _ _ _ _

theorem afterResolve_cors (env : Env) (buf : Bytes) (mw mh : JSNum) (fmt : Format)
    (r : Response) (h : afterResolve env buf mw mh fmt = Except.ok r) : hasCors r := by
  unfold afterResolve at h
  split at h
  · injection h with h
    subst h
    exact clientError_cors _
  · split at h
    · injection h with h
      subst h
      exact clientError_cors _
    · exact processImage_cors env buf mw mh fmt r h

theorem tryHandler_cors (env : Env) (e : Event) (r : Response)
    (h : tryHandler env e = Except.ok r) : hasCors r := by
  simp only [tryHandler] at h
  split at h
  · split at h
    · exact Except.noConfusion h
    · split at h
      · injection h with h
        subst h
        exact clientError_cors _
      · exact afterResolve_cors _ _ _ _ _ r h
  · split at h
    · split at h
      · injection h with h
        subst h
        exact clientError_cors _
      · split at h
        · exact afterResolve_cors _ _ _ _ _ r h
        · injection h with h
          subst h
          exact clientError_cors _
    · injection h with h
      subst h
      exact clientError_cors _

/-- C9: every response the handler produces — the OPTIONS preflight, the
405, every 400 client error, the 200 success, and the 500 catch-all —
carries the three CORS headers `Access-Control-Allow-Origin: *`,
`Access-Control-Allow-Headers: Content-Type`, and
`Access-Control-Allow-Methods: POST, OPTIONS`. -/
theorem handler_cors (env : Env) (e : Event) : hasCors (handler env e) := by
  unfold handler
  split
  · exact hasCors_corsOnly _ _ _
  · split
    · exact hasCors_corsOnly _ _ _
    · split
      · rename_i r heq
        exact tryHandler_cors env e r heq
      · exact hasCors_corsOnly _ _ _

end ImageConverter
